import Mathlib

/-!
Verification development for the OTP Retrieval Engine of the repository
(`src/maestro/utils/sms-helper.js`).  The JavaScript source is shallowly
embedded: strings become `List Char` pipelines, the regex-based replace
and match operations become explicit structural scanners with the same
left-to-right, first-match, greedy-with-backtracking semantics as the
JavaScript regexes, and the retry loop of `getLatestVerificationCode`
becomes a fuel-indexed recursion producing an explicit event trace.
-/

namespace SmsHelper

/-- JavaScript `\s` character class (also the set used by `String.prototype.trim`):
space, tab, line feed, vertical tab, form feed, carriage return, and the
Unicode space separators recognised by JS engines. -/
def isJsWs (c : Char) : Bool :=
  c == ' ' || c == '\t' || c == '\n' || c == '\x0b' || c == '\x0c' || c == '\r' ||
  c == '\u00A0' || c == '\u1680' || ('\u2000' ≤ c && c ≤ '\u200A') ||
  c == '\u2028' || c == '\u2029' || c == '\u202F' || c == '\u205F' ||
  c == '\u3000' || c == '\uFEFF'

/-- JavaScript `\w` character class: ASCII letters, digits and underscore. -/
def isWordChar (c : Char) : Bool :=
  c.isAlphanum || c == '_'

/-- ASCII lower-casing, as applied by `toLowerCase`/the `i` regex flag to the
ASCII-only patterns and filter strings appearing in the source. -/
def asciiLower (c : Char) : Char :=
  if 'A' ≤ c && c ≤ 'Z' then Char.ofNat (c.toNat + 32) else c

/-- `replace(/\r\n/g, ' ')`. -/
def replCrLf : List Char → List Char
  | [] => []
  | '\r' :: '\n' :: rest => ' ' :: replCrLf rest
  | c :: rest => c :: replCrLf rest

/-- `replace(/\r/g, ' ')`. -/
def replCr : List Char → List Char :=
  List.map (fun c => if c == '\r' then ' ' else c)

/-- `replace(/\n/g, ' ')`. -/
def replNl : List Char → List Char :=
  List.map (fun c => if c == '\n' then ' ' else c)

/-- `replace(/=\s/g, '')`: delete each `=` that is immediately followed by a
whitespace character, together with that whitespace character; scanning
resumes after the deleted pair, as with a global JS regex. -/
def removeEqWs : List Char → List Char
  | [] => []
  | '=' :: c :: rest =>
      if isJsWs c then removeEqWs rest else '=' :: removeEqWs (c :: rest)
  | c :: rest => c :: removeEqWs rest

/-- Scanner state for `replace(/\s+/g, ' ')`: the flag records whether the
scanner is inside a whitespace run whose single replacement space was
already emitted. -/
def collapseWsAux : Bool → List Char → List Char
  | _, [] => []
  | inRun, c :: rest =>
      if isJsWs c then
        if inRun then collapseWsAux true rest
        else ' ' :: collapseWsAux true rest
      else c :: collapseWsAux false rest

/-- `replace(/\s+/g, ' ')`: each maximal whitespace run becomes one space. -/
def collapseWs (l : List Char) : List Char :=
  collapseWsAux false l

/-- `trim()`: drop leading and trailing JS whitespace. -/
def trimWs (l : List Char) : List Char :=
  ((l.dropWhile isJsWs).reverse.dropWhile isJsWs).reverse

/-- `cleanSMSBody` (sms-helper.js lines 22-40): collapse line breaks to
spaces, delete quoted-printable `=`-before-whitespace artifacts, collapse
whitespace runs and trim.  Empty (JS-falsy) input yields the empty string. -/
def cleanSMSBody (body : String) : String :=
  if body = "" then ""
  else String.mk (trimWs (collapseWs (removeEqWs (replNl (replCr (replCrLf body.data))))))

/-- `replace(/=\r\n/g, '')`: drop quoted-printable soft line breaks. -/
def replEqCrLf : List Char → List Char
  | [] => []
  | '=' :: '\r' :: '\n' :: rest => replEqCrLf rest
  | c :: rest => c :: replEqCrLf rest

/-- `replace(/=3D/g, '=')`. -/
def repl3D : List Char → List Char
  | [] => []
  | '=' :: '3' :: 'D' :: rest => '=' :: repl3D rest
  | c :: rest => c :: repl3D rest

/-- Upper-case hexadecimal digit, the class `[0-9A-F]` of the source regex. -/
def isHexUp (c : Char) : Bool :=
  c.isDigit || ('A' ≤ c && c ≤ 'F')

def hexVal (c : Char) : Nat :=
  if c.isDigit then c.toNat - 48 else c.toNat - 55

/-- `replace(/=([0-9A-F]{2})/g, ...)`: decode remaining quoted-printable
escapes to the character with that code. -/
def replHex : List Char → List Char
  | [] => []
  | '=' :: a :: b :: rest =>
      if isHexUp a && isHexUp b then
        Char.ofNat (hexVal a * 16 + hexVal b) :: replHex rest
      else '=' :: replHex (a :: b :: rest)
  | c :: rest => c :: replHex rest

/-- Case-sensitive list prefix test. -/
def isPrefixL : List Char → List Char → Bool
  | [], _ => true
  | _ :: _, [] => false
  | a :: as, b :: bs => a == b && isPrefixL as bs

/-- Case-sensitive substring test, the semantics of JS `String.includes`. -/
def isInfixL (pat : List Char) : List Char → Bool
  | [] => pat.isEmpty
  | c :: rest => isPrefixL pat (c :: rest) || isInfixL pat rest

/-- Case-insensitive (ASCII folding) list prefix test, for `i`-flagged regexes. -/
def ciPrefixL : List Char → List Char → Bool
  | [], _ => true
  | _ :: _, [] => false
  | p :: ps, c :: cs => asciiLower c == asciiLower p && ciPrefixL ps cs

/-- Case-insensitive substring test. -/
def ciInfixL (pat : List Char) : List Char → Bool
  | [] => pat.isEmpty
  | c :: rest => ciPrefixL pat (c :: rest) || ciInfixL pat rest

def doctypePat : List Char := ['!', 'd', 'o', 'c', 't', 'y', 'p', 'e']

/-- `replace(/<!doctype[^>]*>/gi, '')`.  The flag records whether the scanner
is inside a committed match, skipping to the first `>`; a match is committed
only when the case-insensitive `!doctype` prefix follows the `<` and a
closing `>` exists, exactly when the JS regex matches at that position. -/
def replDoctypeAux : Bool → List Char → List Char
  | true, '>' :: rest => replDoctypeAux false rest
  | true, _ :: rest => replDoctypeAux true rest
  | true, [] => []
  | false, '<' :: rest =>
      if ciPrefixL doctypePat rest && rest.contains '>' then replDoctypeAux true rest
      else '<' :: replDoctypeAux false rest
  | false, c :: rest => c :: replDoctypeAux false rest
  | false, [] => []

/-- `replace(/<!--[\s\S]*?-->/g, '')`: lazy match ends at the first `-->`. -/
def replCommentAux : Bool → List Char → List Char
  | true, '-' :: '-' :: '>' :: rest => replCommentAux false rest
  | true, _ :: rest => replCommentAux true rest
  | true, [] => []
  | false, '<' :: '!' :: '-' :: '-' :: rest =>
      if isInfixL ['-', '-', '>'] rest then replCommentAux true rest
      else '<' :: replCommentAux false ('!' :: '-' :: '-' :: rest)
  | false, c :: rest => c :: replCommentAux false rest
  | false, [] => []

inductive TagKind
  | scriptTag
  | styleTag
deriving DecidableEq, Repr

def tagPat : TagKind → List Char
  | .scriptTag => ['s', 'c', 'r', 'i', 'p', 't']
  | .styleTag => ['s', 't', 'y', 'l', 'e']

def closePat : TagKind → List Char
  | .scriptTag => ['<', '/', 's', 'c', 'r', 'i', 'p', 't', '>']
  | .styleTag => ['<', '/', 's', 't', 'y', 'l', 'e', '>']

/-- Everything after the first `>`, or `[]` when there is none. -/
def afterGt (l : List Char) : List Char :=
  (l.dropWhile (fun c => !(c == '>'))).tail

inductive SsMode
  | norm
  | toGt (t : TagKind)
  | toClose (t : TagKind)

/-- `replace(/<(script|style)[^>]*>[\s\S]*?<\/\1>/gi, '')`: remove script and
style elements with their content.  A match is committed at `<` only when the
tag keyword follows, an open-tag `>` exists, and the matching close tag occurs
after that `>` (the lazy body then ends at the first close tag), exactly when
the JS regex matches at that position. -/
def replSsAux : SsMode → List Char → List Char
  | .norm, '<' :: rest =>
      if ciPrefixL (tagPat .scriptTag) rest && rest.contains '>' &&
          ciInfixL (closePat .scriptTag) (afterGt rest) then
        replSsAux (.toGt .scriptTag) rest
      else if ciPrefixL (tagPat .styleTag) rest && rest.contains '>' &&
          ciInfixL (closePat .styleTag) (afterGt rest) then
        replSsAux (.toGt .styleTag) rest
      else '<' :: replSsAux .norm rest
  | .norm, c :: rest => c :: replSsAux .norm rest
  | .toGt t, '>' :: rest => replSsAux (.toClose t) rest
  | .toGt t, _ :: rest => replSsAux (.toGt t) rest
  | .toClose .scriptTag, '<' :: '/' :: c1 :: c2 :: c3 :: c4 :: c5 :: c6 :: '>' :: rest =>
      if asciiLower c1 == 's' && asciiLower c2 == 'c' && asciiLower c3 == 'r' &&
          asciiLower c4 == 'i' && asciiLower c5 == 'p' && asciiLower c6 == 't' then
        replSsAux .norm rest
      else
        replSsAux (.toClose .scriptTag)
          ('/' :: c1 :: c2 :: c3 :: c4 :: c5 :: c6 :: '>' :: rest)
  | .toClose .styleTag, '<' :: '/' :: c1 :: c2 :: c3 :: c4 :: c5 :: '>' :: rest =>
      if asciiLower c1 == 's' && asciiLower c2 == 't' && asciiLower c3 == 'y' &&
          asciiLower c4 == 'l' && asciiLower c5 == 'e' then
        replSsAux .norm rest
      else
        replSsAux (.toClose .styleTag) ('/' :: c1 :: c2 :: c3 :: c4 :: c5 :: '>' :: rest)
  | .toClose t, _ :: rest => replSsAux (.toClose t) rest
  | _, [] => []

/-- `replace(/<[^>]*>/g, ' ')`: each remaining complete tag becomes a space. -/
def replTagsAux : Bool → List Char → List Char
  | true, '>' :: rest => replTagsAux false rest
  | true, _ :: rest => replTagsAux true rest
  | true, [] => []
  | false, '<' :: rest =>
      if rest.contains '>' then ' ' :: replTagsAux true rest
      else '<' :: replTagsAux false rest
  | false, c :: rest => c :: replTagsAux false rest
  | false, [] => []

/-- `replace(/&nbsp;/g, ' ')`. -/
def replNbsp : List Char → List Char
  | [] => []
  | '&' :: 'n' :: 'b' :: 's' :: 'p' :: ';' :: rest => ' ' :: replNbsp rest
  | c :: rest => c :: replNbsp rest

/-- `replace(/&lt;/g, '<')`. -/
def replLt : List Char → List Char
  | [] => []
  | '&' :: 'l' :: 't' :: ';' :: rest => '<' :: replLt rest
  | c :: rest => c :: replLt rest

/-- `replace(/&gt;/g, '>')`. -/
def replGt : List Char → List Char
  | [] => []
  | '&' :: 'g' :: 't' :: ';' :: rest => '>' :: replGt rest
  | c :: rest => c :: replGt rest

/-- `replace(/&amp;/g, '&')`. -/
def replAmp : List Char → List Char
  | [] => []
  | '&' :: 'a' :: 'm' :: 'p' :: ';' :: rest => '&' :: replAmp rest
  | c :: rest => c :: replAmp rest

/-- `replace(/&quot;/g, '"')`. -/
def replQuot : List Char → List Char
  | [] => []
  | '&' :: 'q' :: 'u' :: 'o' :: 't' :: ';' :: rest => '"' :: replQuot rest
  | c :: rest => c :: replQuot rest

/-- `replace(/&#39;/g, "'")`. -/
def replApos : List Char → List Char
  | [] => []
  | '&' :: '#' :: '3' :: '9' :: ';' :: rest => '\'' :: replApos rest
  | c :: rest => c :: replApos rest

/-- `cleanEmailBody` (sms-helper.js lines 47-93): quoted-printable decoding,
markup stripping and entity decoding, then the same line-break and whitespace
normalization as the SMS variant. -/
def cleanEmailBody (body : String) : String :=
  if body = "" then ""
  else
    String.mk (trimWs (collapseWs (replNl (replCr (replCrLf
      (replApos (replQuot (replAmp (replGt (replLt (replNbsp
      (replTagsAux false (replSsAux .norm (replCommentAux false (replDoctypeAux false
      (replHex (repl3D (replEqCrLf body.data))))))))))))))))))

/-! ## Code extractor (`extractVerificationCode`, lines 100-145)

Each regex strategy is embedded as a position scanner: `scan` visits the
positions of the string left to right, remembering the previous character
(for word-boundary tests), and returns the first position's match, exactly
the leftmost-match semantics of JS `String.match`. -/

/-- Leftmost-match driver: try a position matcher at every position. -/
def scan (tryAt : Option Char → List Char → Option (List Char)) :
    Option Char → List Char → Option (List Char)
  | _, [] => none
  | prev, c :: rest =>
      match tryAt prev (c :: rest) with
      | some r => some r
      | none => scan tryAt (some c) rest

/-- A `\b` test against an optional neighbouring character when the character
on the inside of the boundary is a word character: the outside must be absent
or a non-word character. -/
def nonWordO : Option Char → Bool
  | none => true
  | some c => !isWordChar c

/-- `\d{n}` at the head of the list. -/
def digitsTake (n : Nat) (l : List Char) : Bool :=
  (l.take n).length == n && (l.take n).all Char.isDigit

/-- Position matcher for strategy 1, `\b\d{6}\b`. -/
def try6 (prev : Option Char) (l : List Char) : Option (List Char) :=
  if nonWordO prev && digitsTake 6 l && nonWordO (l.drop 6).head? then
    some (l.take 6)
  else none

/-- Position matcher for strategy 2, `\b\d{5,7}\b`: greedy with backtracking,
so lengths are tried from 7 down to 5. -/
def try57 (prev : Option Char) (l : List Char) : Option (List Char) :=
  if !nonWordO prev then none
  else if digitsTake 7 l && nonWordO (l.drop 7).head? then some (l.take 7)
  else if digitsTake 6 l && nonWordO (l.drop 6).head? then some (l.take 6)
  else if digitsTake 5 l && nonWordO (l.drop 5).head? then some (l.take 5)
  else none

def kwVerif : List Char := ['v', 'e', 'r', 'i', 'f', 'i', 'c', 'a', 't', 'i', 'o', 'n']
def kwCode : List Char := ['c', 'o', 'd', 'e']

/-- Case-insensitive keyword strip: on success, the remainder of the list. -/
def ciStrip : List Char → List Char → Option (List Char)
  | [], l => some l
  | _ :: _, [] => none
  | p :: ps, c :: cs => if asciiLower c == asciiLower p then ciStrip ps cs else none

/-- The capture `(\d{4,8})` with nothing after it: greedily take up to 8
leading digits. -/
def takeDigits8 (l : List Char) : List Char :=
  (l.takeWhile Char.isDigit).take 8

/-- The `\s*:?\s*(\d{4,8})` tail of strategy 3 after the keyword. -/
def try3Tail (r : List Char) : Option (List Char) :=
  let r1 := r.dropWhile isJsWs
  let r2 := match r1 with
    | ':' :: rest => rest
    | _ => r1
  let r3 := r2.dropWhile isJsWs
  let d := takeDigits8 r3
  if 4 ≤ d.length then some d else none

/-- Position matcher for strategy 3,
`(?:verification\s+code|code)\s*:?\s*(\d{4,8})` with the `i` flag.  The first
alternative needs `verification`, at least one whitespace, then `code`; when
it fails the second alternative (`code` alone) cannot match at the same
position, since no character matches both `v` and `c`. -/
def try3 (l : List Char) : Option (List Char) :=
  match ciStrip kwVerif l with
  | some r =>
      match r with
      | c :: _ =>
          if isJsWs c then
            match ciStrip kwCode (r.dropWhile isJsWs) with
            | some r2 => try3Tail r2
            | none => none
          else none
      | [] => none
  | none =>
      match ciStrip kwCode l with
      | some r => try3Tail r
      | none => none

/-- Position matcher for strategy 4, `\d{4,8}`. -/
def try4 (l : List Char) : Option (List Char) :=
  let d := takeDigits8 l
  if 4 ≤ d.length then some d else none

/-- `extractVerificationCode` (lines 100-145): four strategies in order,
first match wins; a 5-7 digit strategy-2 match is returned as-is when its
length is 6 or below and truncated to its first 6 digits when longer. -/
def extractVerificationCode (s : String) : Option String :=
  if s = "" then none
  else
    match scan try6 none s.data with
    | some m => some (String.mk m)
    | none =>
      match scan try57 none s.data with
      | some code =>
          if code.length == 6 then some (String.mk code)
          else if 6 < code.length then some (String.mk (code.take 6))
          else some (String.mk code)
      | none =>
        match scan (fun _ l => try3 l) none s.data with
        | some d => some (String.mk d)
        | none =>
          match scan (fun _ l => try4 l) none s.data with
          | some d => some (String.mk d)
          | none => none

/-! ## Standalone digit runs (specification-side notion)

A standalone run of `n` digits at a position is `n` digits delimited by word
boundaries, the notion used by the specification to describe strategies 1 and
2.  It is defined independently of the strategy matchers and related to them
by lemmas below. -/

/-- Some length in `[lo, hi]` gives a word-boundary-delimited digit run here. -/
def standaloneRunAt (lo hi : Nat) (prev : Option Char) (l : List Char) : Bool :=
  nonWordO prev &&
    (List.range' lo (hi + 1 - lo)).any (fun n => digitsTake n l && nonWordO (l.drop n).head?)

/-- The input has a standalone digit run of some length in `[lo, hi]`,
given the character preceding the scanned part. -/
def hasStandaloneRun (lo hi : Nat) : Option Char → List Char → Bool
  | _, [] => false
  | prev, c :: rest =>
      standaloneRunAt lo hi prev (c :: rest) || hasStandaloneRun lo hi (some c) rest

/-- The character just before the position following `l`, when scanning
started with `prev` just before `l`: the last character of `l`, or `prev`
when `l` is empty. -/
def lastO (prev : Option Char) (l : List Char) : Option Char :=
  match l.getLast? with
  | some c => some c
  | none => prev

/-! ## Message data model and selection

Shapes of the JSON records consumed by `getLatestVerificationCode` and
`getLatestEmailVerificationCode`; every field the code accesses behind a
truthiness check is an `Option`. -/

structure Recipient where
  Mailbox : Option String
  Domain : Option String
deriving DecidableEq, Repr

structure MsgHeaders where
  Subject : Option (List String)
  From : Option (List String)
deriving DecidableEq, Repr

structure MsgContent where
  Headers : Option MsgHeaders
  Body : Option String
deriving DecidableEq, Repr

structure Message where
  Content : Option MsgContent
  To : Option (List Recipient)
deriving DecidableEq, Repr

/-- JS `String.prototype.includes`. -/
def includes (s sub : String) : Bool :=
  isInfixL sub.data s.data

/-- `toLowerCase`, ASCII folding (the filter strings in the source are ASCII). -/
def strLower (s : String) : String :=
  String.mk (s.data.map asciiLower)

/-- Outcome of processing one message inside the per-attempt loop: a code was
extracted, the message was skipped, or an exception was thrown (the JS code
indexes `Subject[0]`/`From[0]` without a bounds check, so a present-but-empty
header array raises a `TypeError`). -/
inductive Candidate
  | found (code : String)
  | nomatch
  | crash
deriving DecidableEq, Repr

/-- One iteration of the message loop of `getLatestVerificationCode`
(lines 184-214): subject must exist, contain `"SMS"` and, with a non-empty
(JS-truthy) phone number, contain the phone number; then the body is cleaned
and a code extracted; an extraction miss leaves the loop running. -/
def smsCandidate (phone : String) (m : Message) : Candidate :=
  match m.Content with
  | none => .nomatch
  | some content =>
    match content.Headers with
    | none => .nomatch
    | some hdrs =>
      match hdrs.Subject with
      | none => .nomatch
      | some [] => .crash
      | some (subject :: _) =>
          if includes subject "SMS" && !(phone == "") && includes subject phone then
            match extractVerificationCode (cleanSMSBody (content.Body.getD "")) with
            | some code => .found code
            | none => .nomatch
          else .nomatch

/-- The sms selector predicate alone (the subject test of lines 188-193),
without the extraction stage. -/
def smsPredicate (phone : String) (m : Message) : Bool :=
  match m.Content with
  | some content =>
    match content.Headers with
    | some hdrs =>
      match hdrs.Subject with
      | some (subject :: _) =>
          includes subject "SMS" && !(phone == "") && includes subject phone
      | _ => false
    | none => false
  | none => false

/-- One iteration of the message loop of `getLatestEmailVerificationCode`
(lines 331-377).  `From`, `Subject` and `To` must all be present; the sender
must contain the FasterPay marker; the lower-cased subject must contain
`"verification"`; some recipient, rebuilt as `mailbox@domain` from JS-truthy
(non-empty) parts, must equal the address exactly.  The `&&` chain evaluates
`fromEmail` before `subject`, so an empty `From` array always crashes while an
empty `Subject` array crashes only when the sender check passes. -/
def emailCandidate (email : String) (m : Message) : Candidate :=
  match m.Content with
  | none => .nomatch
  | some content =>
    match content.Headers with
    | none => .nomatch
    | some hdrs =>
      match hdrs.From, hdrs.Subject, m.To with
      | some fromList, some subjList, some toList =>
        match fromList with
        | [] => .crash
        | fromEmail :: _ =>
            if !(includes fromEmail "support@fasterpay.com") then .nomatch
            else
              match subjList with
              | [] => .crash
              | subject :: _ =>
                  if includes (strLower subject) "verification" then
                    if toList.any (fun r =>
                        match r.Mailbox, r.Domain with
                        | some mb, some dom =>
                            !(mb == "") && !(dom == "") && ((mb ++ "@" ++ dom) == email)
                        | _, _ => false) then
                      match extractVerificationCode (cleanEmailBody (content.Body.getD "")) with
                      | some code => .found code
                      | none => .nomatch
                    else .nomatch
                  else .nomatch
      | _, _, _ => .nomatch

/-- The whole message loop over one fetched list, in inbox order: the first
`found` or `crash` stops the scan, `nomatch` moves to the next message. -/
def scanMessages (phone : String) : List Message → Candidate
  | [] => .nomatch
  | m :: rest =>
      match smsCandidate phone m with
      | .found c => .found c
      | .crash => .crash
      | .nomatch => scanMessages phone rest

/-! ## Retrieval controller (`getLatestVerificationCode`, lines 155-248)

One `Fetch` per attempt models the inbox call: either the parsed `items`
list, or a thrown fetch error (non-ok HTTP status or transport fault)
carrying its message.  The loop is embedded as a fuel-indexed recursion with
the invariant `attempt + fuel = maxAttempts + 1`; it returns the JS return
value or thrown error, paired with the trace of fetches and delay waits. -/

inductive Fetch
  | fail (msg : String)
  | ok (msgs : List Message)

inductive Event
  | fetchCall
  | wait (ms : Nat)
deriving DecidableEq, Repr

/-- The exhaustion error of line 247. -/
def exhaustMsg (phone : String) (maxAttempts : Nat) : String :=
  "No verification code found in SMS messages for phone number: " ++ phone ++
    " after " ++ toString maxAttempts ++ " attempts"

/-- Message of the `TypeError` thrown by an out-of-bounds header access; the
exact text is engine-defined and not modeled further. -/
def crashMsg : String := "TypeError"

def smsLoop (phone : String) (fetches : Nat → Fetch) (maxAttempts retryDelay : Nat) :
    Nat → Nat → Except String String × List Event
  | _, 0 => (.error (exhaustMsg phone maxAttempts), [])
  | attempt, fuel + 1 =>
      match fetches attempt with
      | .fail e =>
          if attempt == maxAttempts then (.error e, [.fetchCall])
          else
            let r := smsLoop phone fetches maxAttempts retryDelay (attempt + 1) fuel
            (r.1, .fetchCall :: .wait retryDelay :: r.2)
      | .ok msgs =>
          match scanMessages phone msgs with
          | .found code => (.ok code, [.fetchCall])
          | .crash =>
              if attempt == maxAttempts then (.error crashMsg, [.fetchCall])
              else
                let r := smsLoop phone fetches maxAttempts retryDelay (attempt + 1) fuel
                (r.1, .fetchCall :: .wait retryDelay :: r.2)
          | .nomatch =>
              if attempt < maxAttempts then
                let r := smsLoop phone fetches maxAttempts retryDelay (attempt + 1) fuel
                (r.1, .fetchCall :: .wait retryDelay :: r.2)
              else
                let r := smsLoop phone fetches maxAttempts retryDelay (attempt + 1) fuel
                (r.1, .fetchCall :: r.2)

/-- `getLatestVerificationCode(phoneNumber, maxAttempts, retryDelay)`. -/
def getLatestVerificationCode (phone : String) (fetches : Nat → Fetch)
    (maxAttempts retryDelay : Nat) : Except String String × List Event :=
  smsLoop phone fetches maxAttempts retryDelay 1 maxAttempts

def countFetch : List Event → Nat
  | [] => 0
  | .fetchCall :: r => countFetch r + 1
  | .wait _ :: r => countFetch r

def countWait : List Event → Nat
  | [] => 0
  | .wait _ :: r => countWait r + 1
  | .fetchCall :: r => countWait r

/-! ## Concrete messages used to exercise the sms scan order -/

/-- A message matching the sms selector whose body contains no digits. -/
def msgNoCode : Message :=
  { Content := some
      { Headers := some { Subject := some ["SMS to +15551234567"], From := none }
        Body := some "hello there, nothing numeric" }
    To := none }

/-- A message matching the sms selector whose body contains a clean code. -/
def msgWithCode : Message :=
  { Content := some
      { Headers := some { Subject := some ["SMS to +15551234567"], From := none }
        Body := some "Your code is: 482913." }
    To := none }

/-- No two adjacent whitespace characters anywhere in the list. -/
def noTwoWsB : List Char → Bool
  | a :: b :: rest => (!(isJsWs a && isJsWs b)) && noTwoWsB (b :: rest)
  | _ => true

/-- No `=` immediately followed by a whitespace character. -/
def noEqWsB : List Char → Bool
  | a :: b :: rest => (!(a == '=' && isJsWs b)) && noEqWsB (b :: rest)
  | _ => true

/-- The character `x` does not occur in the list. -/
def noChar (x : Char) (l : List Char) : Bool :=
  l.all fun c => !(c == x)

end SmsHelper

namespace SmsHelper

/-! ## Theorems -/

/-- C1 (counterexample): with two messages both matching the sms predicate
where only the second carries an extractable code, the per-attempt scan does
not stop at the first match: the first message yields no code, yet the
attempt returns the second message's code instead of ending as a no-match. -/
theorem c1_counterexample :
    smsPredicate "+15551234567" msgNoCode = true ∧
    smsPredicate "+15551234567" msgWithCode = true ∧
    smsCandidate "+15551234567" msgNoCode = Candidate.nomatch ∧
    scanMessages "+15551234567" [msgNoCode, msgWithCode] = Candidate.found "482913" := by
  decide

/-- C1 (amended): within one fetched list the controller scans messages in
inbox order and returns the code of the first matching message whose body
yields an extractable code; matching messages that yield no code are skipped
rather than ending the attempt. -/
theorem c1_first_extractable_match (phone : String) (l1 l2 : List Message)
    (m : Message) (c : String)
    (h1 : ∀ m' ∈ l1, smsCandidate phone m' = Candidate.nomatch)
    (h2 : smsCandidate phone m = Candidate.found c) :
    scanMessages phone (l1 ++ m :: l2) = Candidate.found c := by
  induction l1 with
  | nil => simp [scanMessages, h2]
  | cons a as ih =>
      have ha : smsCandidate phone a = Candidate.nomatch := h1 a (by simp)
      have hrest : ∀ m' ∈ as, smsCandidate phone m' = Candidate.nomatch :=
        fun m' hm' => h1 m' (by simp [hm'])
      simpa [scanMessages, ha] using ih hrest

/-- C1 (witness for the amended claim): instantiation at the two concrete
messages above. -/
theorem c1_first_extractable_match_witness :
    scanMessages "+15551234567" [msgNoCode, msgWithCode] = Candidate.found "482913" :=
  c1_first_extractable_match "+15551234567" [msgNoCode] [] msgWithCode "482913"
    (by intro m' hm'
        have : m' = msgNoCode := by simpa using hm'
        subst this
        decide)
    (by decide)

/-- C9: a message whose `Content`, `Headers`, or expected header key is
absent (`Subject` for the sms selector; `From`, `Subject` or `To` for the
email selector) is treated as a non-match by the selection step and skipped,
never crashing the attempt. -/
theorem c9_absent_fields_nonmatch (phone email : String) (m : Message) :
    ((m.Content.bind MsgContent.Headers).bind MsgHeaders.Subject = none →
      smsCandidate phone m = Candidate.nomatch) ∧
    ((m.Content.bind MsgContent.Headers).bind MsgHeaders.From = none ∨
        (m.Content.bind MsgContent.Headers).bind MsgHeaders.Subject = none ∨
        m.To = none →
      emailCandidate email m = Candidate.nomatch) := by
  constructor
  · intro h
    match hm : m.Content with
    | none => simp [smsCandidate, hm]
    | some content =>
      match hh : content.Headers with
      | none => simp [smsCandidate, hm, hh]
      | some hdrs =>
          rw [hm] at h
          simp only [Option.some_bind, hh] at h
          simp [smsCandidate, hm, hh, h]
  · intro h
    match hm : m.Content with
    | none => simp [emailCandidate, hm]
    | some content =>
      match hh : content.Headers with
      | none => simp [emailCandidate, hm, hh]
      | some hdrs =>
        match hf : hdrs.From, hsj : hdrs.Subject, hto : m.To with
        | none, _, _ => simp [emailCandidate, hm, hh, hf]
        | some fl, none, _ => simp [emailCandidate, hm, hh, hf, hsj]
        | some fl, some sl, none => simp [emailCandidate, hm, hh, hf, hsj, hto]
        | some fl, some sl, some tl =>
            rw [hm] at h
            simp only [Option.some_bind, hh] at h
            rcases h with h | h | h
            · rw [hf] at h; exact absurd h (by simp)
            · rw [hsj] at h; exact absurd h (by simp)
            · rw [hto] at h; exact absurd h (by simp)

/-- Every leftmost-scan success is a success of the position matcher at some
split of the input, with some previous-character context. -/
theorem scan_split_of_some {tryAt : Option Char → List Char → Option (List Char)} :
    ∀ {prev : Option Char} {l r : List Char}, scan tryAt prev l = some r →
      ∃ u t p, l = u ++ t ∧ tryAt p t = some r := by
  intro prev l r h
  induction l generalizing prev with
  | nil => simp [scan] at h
  | cons c rest ih =>
      rw [scan] at h
      cases htry : tryAt prev (c :: rest) with
      | some r' =>
          simp only [htry, Option.some.injEq] at h
          exact ⟨[], c :: rest, prev, rfl, by rw [htry, h]⟩
      | none =>
          simp only [htry] at h
          obtain ⟨u, t, p, hsplit, hmatch⟩ := ih h
          exact ⟨c :: u, t, p, by rw [hsplit]; rfl, hmatch⟩

theorem try6_shape {prev : Option Char} {l r : List Char} (h : try6 prev l = some r) :
    r.length = 6 ∧ r.all Char.isDigit = true := by
  unfold try6 at h
  split at h
  case isTrue hc =>
    injection h with h
    subst h
    simp only [Bool.and_eq_true, digitsTake, beq_iff_eq] at hc
    exact ⟨hc.1.2.1, hc.1.2.2⟩
  case isFalse => exact absurd h (by simp)

theorem try57_shape {prev : Option Char} {l r : List Char} (h : try57 prev l = some r) :
    (5 ≤ r.length ∧ r.length ≤ 7) ∧ r.all Char.isDigit = true := by
  unfold try57 at h
  split at h
  · exact absurd h (by simp)
  split at h
  case isTrue hc =>
    injection h with h
    subst h
    simp only [Bool.and_eq_true, digitsTake, beq_iff_eq] at hc
    exact ⟨⟨by omega, by omega⟩, hc.1.2⟩
  split at h
  case isTrue hc =>
    injection h with h
    subst h
    simp only [Bool.and_eq_true, digitsTake, beq_iff_eq] at hc
    exact ⟨⟨by omega, by omega⟩, hc.1.2⟩
  split at h
  case isTrue hc =>
    injection h with h
    subst h
    simp only [Bool.and_eq_true, digitsTake, beq_iff_eq] at hc
    exact ⟨⟨by omega, by omega⟩, hc.1.2⟩
  case isFalse => exact absurd h (by simp)

theorem takeDigits8_all (l : List Char) : (takeDigits8 l).all Char.isDigit = true := by
  simp only [takeDigits8, List.all_eq_true]
  intro c hc
  exact List.mem_takeWhile_imp (List.mem_of_mem_take hc)

theorem takeDigits8_len (l : List Char) : (takeDigits8 l).length ≤ 8 := by
  simpa [takeDigits8] using Nat.min_le_left 8 _

theorem try3Tail_shape {r : List Char} {d : List Char} (h : try3Tail r = some d) :
    d.all Char.isDigit = true ∧ 4 ≤ d.length ∧ d.length ≤ 8 := by
  simp only [try3Tail] at h
  split at h
  case isTrue hc =>
    injection h with h
    subst h
    exact ⟨takeDigits8_all _, hc, takeDigits8_len _⟩
  case isFalse => exact absurd h (by simp)

theorem try3_shape {l d : List Char} (h : try3 l = some d) :
    d.all Char.isDigit = true ∧ 4 ≤ d.length ∧ d.length ≤ 8 := by
  unfold try3 at h
  cases h1 : ciStrip kwVerif l with
  | some r =>
      simp only [h1] at h
      cases r with
      | nil => simp at h
      | cons c cs =>
          simp only [] at h
          split at h
          · cases h2 : ciStrip kwCode ((c :: cs).dropWhile isJsWs) with
            | some r2 => simp only [h2] at h; exact try3Tail_shape h
            | none => simp [h2] at h
          · simp at h
  | none =>
      simp only [h1] at h
      cases h2 : ciStrip kwCode l with
      | some r => simp only [h2] at h; exact try3Tail_shape h
      | none => simp [h2] at h

theorem try4_shape {l d : List Char} (h : try4 l = some d) :
    d.all Char.isDigit = true ∧ 4 ≤ d.length ∧ d.length ≤ 8 := by
  simp only [try4] at h
  split at h
  case isTrue hc =>
    injection h with h
    subst h
    exact ⟨takeDigits8_all _, hc, takeDigits8_len _⟩
  case isFalse => exact absurd h (by simp)

theorem all_of_take {p : Char → Bool} {l : List Char} (n : Nat)
    (h : l.all p = true) : (l.take n).all p = true := by
  simp only [List.all_eq_true] at h ⊢
  exact fun c hc => h c (List.mem_of_mem_take hc)

/-- C6: the extractor returns either absence or a digit string of length 4
to 8; it never returns anything else. -/
theorem c6_extraction_shape (s c : String) (h : extractVerificationCode s = some c) :
    c.data.all Char.isDigit = true ∧ 4 ≤ c.length ∧ c.length ≤ 8 := by
  unfold extractVerificationCode at h
  split at h
  · exact absurd h (by simp)
  cases h1 : scan try6 none s.data with
  | some m =>
      simp only [h1] at h
      injection h with h
      subst h
      obtain ⟨u, t, p, -, hm⟩ := scan_split_of_some h1
      obtain ⟨hl, hd⟩ := try6_shape hm
      refine ⟨hd, ?_, ?_⟩ <;> simp [String.length, hl]
  | none =>
      simp only [h1] at h
      cases h2 : scan try57 none s.data with
      | some code =>
          simp only [h2] at h
          obtain ⟨u, t, p, -, hm⟩ := scan_split_of_some h2
          obtain ⟨⟨hl5, hl7⟩, hd⟩ := try57_shape hm
          split at h
          case isTrue h6 =>
            injection h with h
            subst h
            simp only [beq_iff_eq] at h6
            exact ⟨hd, by simp [String.length, h6], by simp [String.length, h6]⟩
          split at h
          case isTrue h6 =>
            injection h with h
            subst h
            refine ⟨all_of_take 6 hd, ?_, ?_⟩ <;>
              simp [String.length, List.length_take] <;> omega
          case isFalse h6 h7 =>
            injection h with h
            subst h
            exact ⟨hd, by simp [String.length]; omega, by simp [String.length]; omega⟩
      | none =>
          simp only [h2] at h
          cases h3 : scan (fun _ l => try3 l) none s.data with
          | some d =>
              simp only [h3] at h
              injection h with h
              subst h
              obtain ⟨u, t, p, -, hm⟩ := scan_split_of_some h3
              obtain ⟨hd, h4, h8⟩ := try3_shape hm
              exact ⟨hd, by simpa [String.length] using h4, by simpa [String.length] using h8⟩
          | none =>
              simp only [h3] at h
              cases h4 : scan (fun _ l => try4 l) none s.data with
              | some d =>
                  simp only [h4] at h
                  injection h with h
                  subst h
                  obtain ⟨u, t, p, -, hm⟩ := scan_split_of_some h4
                  obtain ⟨hd, hge, hle⟩ := try4_shape hm
                  exact ⟨hd, by simpa [String.length] using hge,
                    by simpa [String.length] using hle⟩
              | none => simp [h4] at h

/-- C6 (witness): instantiation at a concrete message body. -/
theorem c6_extraction_shape_witness :
    ("482913" : String).data.all Char.isDigit = true ∧
    4 ≤ ("482913" : String).length ∧ ("482913" : String).length ≤ 8 :=
  c6_extraction_shape "Your code is: 482913." "482913" (by decide)

theorem string_data_append (s t : String) : (s ++ t).data = s.data ++ t.data := rfl

theorem isPrefixL_append (p b : List Char) : isPrefixL p (p ++ b) = true := by
  induction p with
  | nil => rfl
  | cons a as ih => simp [isPrefixL, ih]

theorem isInfixL_of_isPrefixL {p l : List Char} (h : isPrefixL p l = true) :
    isInfixL p l = true := by
  cases l with
  | nil =>
      cases p with
      | nil => rfl
      | cons a as => simp [isPrefixL] at h
  | cons c rest => simp [isInfixL, h]

theorem isInfixL_append (a p b : List Char) : isInfixL p (a ++ (p ++ b)) = true := by
  induction a with
  | nil => exact isInfixL_of_isPrefixL (isPrefixL_append p b)
  | cons x xs ih => simp [isInfixL, ih]

/-- The exhaustion message contains the phone number verbatim. -/
theorem exhaustMsg_names_phone (phone : String) (N : Nat) :
    isInfixL phone.data (exhaustMsg phone N).data = true := by
  have h : (exhaustMsg phone N).data =
      "No verification code found in SMS messages for phone number: ".data ++
        (phone.data ++ (" after " ++ toString N ++ " attempts").data) := by
    simp [exhaustMsg, string_data_append, List.append_assoc]
  rw [h]
  exact isInfixL_append _ _ _

/-- The exhaustion message contains the decimal attempt count verbatim. -/
theorem exhaustMsg_names_count (phone : String) (N : Nat) :
    isInfixL (toString N).data (exhaustMsg phone N).data = true := by
  have h : (exhaustMsg phone N).data =
      ("No verification code found in SMS messages for phone number: " ++ phone ++
          " after ").data ++ ((toString N).data ++ " attempts".data) := by
    simp [exhaustMsg, string_data_append, List.append_assoc]
  rw [h]
  exact isInfixL_append _ _ _

/-- Runs of the retry loop in which every remaining attempt fetches a list
yielding no match end in the exhaustion error, with one fetch per remaining
attempt and one wait between consecutive attempts. -/
theorem smsLoop_all_nomatch (phone : String) (fs : Nat → Fetch) (N d : Nat) :
    ∀ fuel attempt, attempt + fuel = N + 1 → 1 ≤ attempt →
    (∀ k, attempt ≤ k → k ≤ N → ∃ msgs, fs k = Fetch.ok msgs ∧
        scanMessages phone msgs = Candidate.nomatch) →
    (smsLoop phone fs N d attempt fuel).1 = Except.error (exhaustMsg phone N) ∧
    countFetch (smsLoop phone fs N d attempt fuel).2 = fuel ∧
    countWait (smsLoop phone fs N d attempt fuel).2 = fuel - 1 := by
  intro fuel
  induction fuel with
  | zero =>
      intro attempt hsum h1 hall
      simp [smsLoop, countFetch, countWait]
  | succ fuel ih =>
      intro attempt hsum h1 hall
      have hle : attempt ≤ N := by omega
      obtain ⟨msgs, hf, hs⟩ := hall attempt le_rfl hle
      by_cases hlt : attempt < N
      · have hrec := ih (attempt + 1) (by omega) (by omega)
          (fun k hk1 hk2 => hall k (by omega) hk2)
        simp only [smsLoop, hf, hs, if_pos hlt]
        refine ⟨hrec.1, ?_, ?_⟩
        · simp [countFetch, countWait, hrec.2.1]
        · simp [countFetch, countWait, hrec.2.2]
          omega
      · have heq : attempt = N := by omega
        have hf0 : fuel = 0 := by omega
        subst heq
        subst hf0
        simp [smsLoop, hf, hs, countFetch, countWait]

/-- C7: when no attempt produces a code but every fetch succeeds, the
controller performs exactly `maxAttempts` fetches and then fails with the
exhaustion error, whose text names the phone number and the attempt count. -/
theorem c7_exhausted_retries (phone : String) (fs : Nat → Fetch) (N d : Nat)
    (hN : 1 ≤ N)
    (hall : ∀ k, 1 ≤ k → k ≤ N → ∃ msgs, fs k = Fetch.ok msgs ∧
        scanMessages phone msgs = Candidate.nomatch) :
    (getLatestVerificationCode phone fs N d).1 = Except.error (exhaustMsg phone N) ∧
    countFetch (getLatestVerificationCode phone fs N d).2 = N ∧
    isInfixL phone.data (exhaustMsg phone N).data = true ∧
    isInfixL (toString N).data (exhaustMsg phone N).data = true := by
  have h := smsLoop_all_nomatch phone fs N d N 1 (by omega) le_rfl hall
  exact ⟨h.1, h.2.1, exhaustMsg_names_phone phone N, exhaustMsg_names_count phone N⟩

/-- C7 (witness): two attempts over an empty inbox. -/
theorem c7_exhausted_retries_witness :
    (getLatestVerificationCode "+15551234567" (fun _ => Fetch.ok []) 2 3000).1 =
      Except.error (exhaustMsg "+15551234567" 2) ∧
    countFetch (getLatestVerificationCode "+15551234567" (fun _ => Fetch.ok []) 2 3000).2 = 2 ∧
    isInfixL "+15551234567".data (exhaustMsg "+15551234567" 2).data = true ∧
    isInfixL (toString 2).data (exhaustMsg "+15551234567" 2).data = true :=
  c7_exhausted_retries "+15551234567" (fun _ => Fetch.ok []) 2 3000 (by omega)
    (fun _ _ _ => ⟨[], rfl, rfl⟩)

/-- Runs in which all attempts before the final one yield no match and the
final fetch throws propagate exactly that error. -/
theorem smsLoop_fail_final (phone : String) (fs : Nat → Fetch) (N d : Nat) (e : String)
    (hlast : fs N = Fetch.fail e) :
    ∀ fuel attempt, attempt + fuel = N + 1 → 1 ≤ fuel →
    (∀ k, attempt ≤ k → k < N → ∃ msgs, fs k = Fetch.ok msgs ∧
        scanMessages phone msgs = Candidate.nomatch) →
    (smsLoop phone fs N d attempt fuel).1 = Except.error e ∧
    countFetch (smsLoop phone fs N d attempt fuel).2 = fuel := by
  intro fuel
  induction fuel with
  | zero => intro attempt hsum h1 hall; omega
  | succ fuel ih =>
      intro attempt hsum h1 hall
      by_cases hfe : fuel = 0
      · have heq : attempt = N := by omega
        subst hfe
        subst heq
        simp [smsLoop, hlast, countFetch]
      · have hlt : attempt < N := by omega
        obtain ⟨msgs, hf, hs⟩ := hall attempt le_rfl hlt
        have hrec := ih (attempt + 1) (by omega) (by omega)
          (fun k hk1 hk2 => hall k (by omega) hk2)
        simp only [smsLoop, hf, hs, if_pos hlt]
        exact ⟨hrec.1, by simp [countFetch, hrec.2]⟩

/-- Runs in which one non-final attempt's fetch throws while all other
attempts yield no match still run all attempts and end in exhaustion: the
error is absorbed, a wait happens, and the loop proceeds. -/
theorem smsLoop_fail_absorbed (phone : String) (fs : Nat → Fetch) (N d : Nat)
    (e : String) (k : Nat) (hk : k < N) (hfk : fs k = Fetch.fail e) :
    ∀ fuel attempt, attempt + fuel = N + 1 → 1 ≤ attempt →
    (∀ j, attempt ≤ j → j ≤ N → j ≠ k → ∃ msgs, fs j = Fetch.ok msgs ∧
        scanMessages phone msgs = Candidate.nomatch) →
    (smsLoop phone fs N d attempt fuel).1 = Except.error (exhaustMsg phone N) ∧
    countFetch (smsLoop phone fs N d attempt fuel).2 = fuel ∧
    countWait (smsLoop phone fs N d attempt fuel).2 = fuel - 1 := by
  intro fuel
  induction fuel with
  | zero =>
      intro attempt hsum h1 hall
      simp [smsLoop, countFetch, countWait]
  | succ fuel ih =>
      intro attempt hsum h1 hall
      by_cases hak : attempt = k
      · subst hak
        have hne : (attempt == N) = false := by simp; omega
        have hrec := ih (attempt + 1) (by omega) (by omega)
          (fun j hj1 hj2 _ => hall j (by omega) hj2 (by omega))
        simp only [smsLoop, hfk, hne, Bool.false_eq_true, if_false]
        refine ⟨hrec.1, ?_, ?_⟩
        · simp [countFetch, countWait, hrec.2.1]
        · simp [countFetch, countWait, hrec.2.2]
          omega
      · obtain ⟨msgs, hf, hs⟩ := hall attempt le_rfl (by omega) hak
        by_cases hlt : attempt < N
        · have hrec := ih (attempt + 1) (by omega) (by omega)
            (fun j hj1 hj2 hjk => hall j (by omega) hj2 hjk)
          simp only [smsLoop, hf, hs, if_pos hlt]
          refine ⟨hrec.1, ?_, ?_⟩
          · simp [countFetch, countWait, hrec.2.1]
          · simp [countFetch, countWait, hrec.2.2]
            omega
        · have heq : attempt = N := by omega
          have hf0 : fuel = 0 := by omega
          subst heq
          subst hf0
          simp [smsLoop, hf, hs, countFetch, countWait]

/-- C8: a fetch failure is fatal exactly on the final attempt.  Part one: if
attempts before the last match nothing and the final fetch throws error `e`,
the whole call propagates `e` after the full `N` fetches.  Part two: if some
non-final attempt `k` throws while every other attempt matches nothing, the
error is absorbed: all `N` fetches still happen, `N - 1` waits happen (one
after the failed attempt too), and the final outcome is the exhaustion
error, not `e`. -/
theorem c8_fetch_failure_policy (phone : String) (fsA fsB : Nat → Fetch)
    (N d k : Nat) (e eB : String) (hN : 1 ≤ N)
    (hpre : ∀ j, 1 ≤ j → j < N → ∃ msgs, fsA j = Fetch.ok msgs ∧
        scanMessages phone msgs = Candidate.nomatch)
    (hlast : fsA N = Fetch.fail e)
    (hk1 : 1 ≤ k) (hkN : k < N)
    (hfk : fsB k = Fetch.fail eB)
    (hrest : ∀ j, 1 ≤ j → j ≤ N → j ≠ k → ∃ msgs, fsB j = Fetch.ok msgs ∧
        scanMessages phone msgs = Candidate.nomatch) :
    ((getLatestVerificationCode phone fsA N d).1 = Except.error e ∧
      countFetch (getLatestVerificationCode phone fsA N d).2 = N) ∧
    ((getLatestVerificationCode phone fsB N d).1 = Except.error (exhaustMsg phone N) ∧
      countFetch (getLatestVerificationCode phone fsB N d).2 = N ∧
      countWait (getLatestVerificationCode phone fsB N d).2 = N - 1) := by
  constructor
  · exact smsLoop_fail_final phone fsA N d e hlast N 1 (by omega) (by omega) hpre
  · exact smsLoop_fail_absorbed phone fsB N d eB k hkN hfk N 1 (by omega) le_rfl hrest

/-- C8 (witness): two attempts; a last-attempt failure propagates while a
first-attempt failure is absorbed into exhaustion. -/
theorem c8_fetch_failure_policy_witness :
    ((getLatestVerificationCode "+15551234567"
        (fun a => if a = 2 then Fetch.fail "Failed to fetch SMS messages: 500"
          else Fetch.ok []) 2 3000).1 =
      Except.error "Failed to fetch SMS messages: 500" ∧
     countFetch (getLatestVerificationCode "+15551234567"
        (fun a => if a = 2 then Fetch.fail "Failed to fetch SMS messages: 500"
          else Fetch.ok []) 2 3000).2 = 2) ∧
    ((getLatestVerificationCode "+15551234567"
        (fun a => if a = 1 then Fetch.fail "Failed to fetch SMS messages: 500"
          else Fetch.ok []) 2 3000).1 =
      Except.error (exhaustMsg "+15551234567" 2) ∧
     countFetch (getLatestVerificationCode "+15551234567"
        (fun a => if a = 1 then Fetch.fail "Failed to fetch SMS messages: 500"
          else Fetch.ok []) 2 3000).2 = 2 ∧
     countWait (getLatestVerificationCode "+15551234567"
        (fun a => if a = 1 then Fetch.fail "Failed to fetch SMS messages: 500"
          else Fetch.ok []) 2 3000).2 = 2 - 1) :=
  c8_fetch_failure_policy "+15551234567"
    (fun a => if a = 2 then Fetch.fail "Failed to fetch SMS messages: 500" else Fetch.ok [])
    (fun a => if a = 1 then Fetch.fail "Failed to fetch SMS messages: 500" else Fetch.ok [])
    2 3000 1 "Failed to fetch SMS messages: 500" "Failed to fetch SMS messages: 500"
    (by omega)
    (by intro j hj1 hjN
        have : j = 1 := by omega
        subst this
        exact ⟨[], rfl, rfl⟩)
    rfl (by omega) (by omega) rfl
    (by intro j hj1 hjN hjk
        have : j = 2 := by omega
        subst this
        exact ⟨[], rfl, rfl⟩)

theorem noTwoWsB_tail {c : Char} {l : List Char} (h : noTwoWsB (c :: l) = true) :
    noTwoWsB l = true := by
  cases l with
  | nil => rfl
  | cons x xs => simp only [noTwoWsB, Bool.and_eq_true] at h; exact h.2

theorem noEqWsB_tail {c : Char} {l : List Char} (h : noEqWsB (c :: l) = true) :
    noEqWsB l = true := by
  cases l with
  | nil => rfl
  | cons x xs => simp only [noEqWsB, Bool.and_eq_true] at h; exact h.2

theorem collapseWsAux_head_true (l : List Char) :
    ((collapseWsAux true l).head?.all fun c => !isJsWs c) = true := by
  induction l with
  | nil => rfl
  | cons c rest ih =>
      by_cases h : isJsWs c
      · simpa [collapseWsAux, h] using ih
      · simp [collapseWsAux, h]

theorem collapseWsAux_noTwo : ∀ (b : Bool) (l : List Char),
    noTwoWsB (collapseWsAux b l) = true := by
  intro b l
  induction l generalizing b with
  | nil => cases b <;> rfl
  | cons c rest ih =>
      by_cases h : isJsWs c
      · cases b
        · have hx := collapseWsAux_head_true rest
          have ht := ih true
          simp only [collapseWsAux, h, if_true, Bool.false_eq_true, if_false]
          cases hX : collapseWsAux true rest with
          | nil => rfl
          | cons x xs =>
              rw [hX] at hx ht
              simp only [Option.all, List.head?] at hx
              simp [noTwoWsB, ht, hx]
        · simpa [collapseWsAux, h] using ih true
      · have hf := ih false
        simp only [collapseWsAux, h, if_false, Bool.false_eq_true]
        cases hX : collapseWsAux false rest with
        | nil => rfl
        | cons x xs =>
            rw [hX] at hf
            simp [noTwoWsB, hf, h]

theorem collapseWsAux_allSpace : ∀ (b : Bool) (l : List Char),
    ((collapseWsAux b l).all fun c => !isJsWs c || c == ' ') = true := by
  intro b l
  induction l generalizing b with
  | nil => cases b <;> rfl
  | cons c rest ih =>
      by_cases h : isJsWs c
      · cases b
        · simp [collapseWsAux, h, ih true]
        · simpa [collapseWsAux, h] using ih true
      · simp [collapseWsAux, h, ih false]

theorem head_dropWhile (p : Char → Bool) (l : List Char) :
    ((l.dropWhile p).head?.all fun c => !p c) = true := by
  induction l with
  | nil => rfl
  | cons c rest ih =>
      by_cases h : p c
      · simpa [List.dropWhile_cons, h] using ih
      · simp [List.dropWhile_cons, h]

theorem noTwoWsB_dropWhile (p : Char → Bool) :
    ∀ l : List Char, noTwoWsB l = true → noTwoWsB (l.dropWhile p) = true := by
  intro l h
  induction l with
  | nil => simpa using h
  | cons c rest ih =>
      by_cases hc : p c
      · simp only [List.dropWhile_cons, hc, if_true]
        exact ih (noTwoWsB_tail h)
      · simpa [List.dropWhile_cons, hc] using h

theorem all_dropWhile (p q : Char → Bool) {l : List Char} (h : l.all q = true) :
    (l.dropWhile p).all q = true := by
  simp only [List.all_eq_true] at h ⊢
  exact fun c hc => h c ((List.dropWhile_sublist p (l := l)).subset hc)

theorem noTwoWsB_iff_chain : ∀ l : List Char,
    noTwoWsB l = true ↔
      List.Chain' (fun a b => ¬(isJsWs a = true ∧ isJsWs b = true)) l := by
  intro l
  induction l with
  | nil => simp [noTwoWsB]
  | cons c rest ih =>
      cases rest with
      | nil => simp [noTwoWsB]
      | cons x xs =>
          rw [List.chain'_cons, ← ih]
          constructor
          · intro h
            simp only [noTwoWsB, Bool.and_eq_true] at h
            refine ⟨fun hc => ?_, h.2⟩
            rw [hc.1, hc.2] at h
            simp at h
          · rintro ⟨h1, h2⟩
            simp only [noTwoWsB, Bool.and_eq_true]
            refine ⟨?_, h2⟩
            by_cases hc : isJsWs c
            · by_cases hx : isJsWs x
              · exact absurd ⟨hc, hx⟩ h1
              · simp [hc, hx]
            · simp [hc]

theorem noTwoWsB_reverse {l : List Char} (h : noTwoWsB l = true) :
    noTwoWsB l.reverse = true := by
  rw [noTwoWsB_iff_chain] at h ⊢
  rw [List.chain'_reverse]
  exact List.Chain'.imp (fun a b hab hba => hab ⟨hba.2, hba.1⟩) h

theorem getLast?_dropWhile_ne (p : Char → Bool) :
    ∀ l : List Char, l.dropWhile p ≠ [] → (l.dropWhile p).getLast? = l.getLast? := by
  intro l
  induction l with
  | nil => intro h; simp at h
  | cons c rest ih =>
      intro h
      by_cases hc : p c
      · rw [List.dropWhile_cons, if_pos hc] at h ⊢
        have hrest : rest ≠ [] := by
          intro he
          subst he
          simp at h
        rw [ih h]
        cases rest with
        | nil => exact absurd rfl hrest
        | cons x xs => simp [List.getLast?_cons_cons]
      · rw [List.dropWhile_cons, if_neg hc]

/-- Output shape of `trim(collapse(x))`: no adjacent whitespace, every
whitespace character is a plain space, and no whitespace at either end. -/
theorem trimCollapse_normal (l : List Char) :
    noTwoWsB (trimWs (collapseWs l)) = true ∧
    ((trimWs (collapseWs l)).all fun c => !isJsWs c || c == ' ') = true ∧
    ((trimWs (collapseWs l)).head?.all fun c => !isJsWs c) = true ∧
    ((trimWs (collapseWs l)).getLast?.all fun c => !isJsWs c) = true := by
  have hX2 : noTwoWsB (collapseWs l) = true := collapseWsAux_noTwo false l
  have hXs : ((collapseWs l).all fun c => !isJsWs c || c == ' ') = true :=
    collapseWsAux_allSpace false l
  set Y := (collapseWs l).dropWhile isJsWs with hY
  have hY2 : noTwoWsB Y = true := noTwoWsB_dropWhile _ _ hX2
  have hYs : (Y.all fun c => !isJsWs c || c == ' ') = true := all_dropWhile _ _ hXs
  have hYh : (Y.head?.all fun c => !isJsWs c) = true := head_dropWhile _ _
  set Z := Y.reverse.dropWhile isJsWs with hZ
  have hZ2 : noTwoWsB Z = true := noTwoWsB_dropWhile _ _ (noTwoWsB_reverse hY2)
  have hZs : (Z.all fun c => !isJsWs c || c == ' ') = true := by
    have : (Y.reverse.all fun c => !isJsWs c || c == ' ') = true := by
      simpa using hYs
    exact all_dropWhile _ _ this
  have hfin : trimWs (collapseWs l) = Z.reverse := rfl
  rw [hfin]
  refine ⟨noTwoWsB_reverse hZ2, by simpa using hZs, ?_, ?_⟩
  · -- head of Z.reverse is the last of Z, which (when Z is nonempty) is the
    -- last of Y.reverse, i.e. the head of Y, a non-whitespace character
    rw [List.head?_reverse]
    cases hZe : Z with
    | nil => rfl
    | cons z zs =>
        have hne : Y.reverse.dropWhile isJsWs ≠ [] := by rw [← hZ, hZe]; simp
        have := getLast?_dropWhile_ne isJsWs Y.reverse hne
        rw [← hZ] at this
        rw [← hZe, this, List.getLast?_reverse]
        exact hYh
  · rw [List.getLast?_reverse]
    exact head_dropWhile _ _

/-- C3 (counterexample): an unclosed tag survives email normalization, so the
output can contain a literal angle bracket. -/
theorem c3_counterexample :
    cleanEmailBody "<" = "<" ∧ (cleanEmailBody "<").data.contains '<' = true := by
  constructor <;> decide

theorem cleanEmailBody_ws_normal (s : String) :
    noTwoWsB (cleanEmailBody s).data = true ∧
    ((cleanEmailBody s).data.all fun c => !isJsWs c || c == ' ') = true ∧
    ((cleanEmailBody s).data.head?.all fun c => !isJsWs c) = true ∧
    ((cleanEmailBody s).data.getLast?.all fun c => !isJsWs c) = true := by
  by_cases hs : s = ""
  · subst hs
    exact ⟨rfl, rfl, rfl, rfl⟩
  · simp only [cleanEmailBody, if_neg hs]
    exact trimCollapse_normal _

theorem cleanSMSBody_ws_normal (s : String) :
    noTwoWsB (cleanSMSBody s).data = true ∧
    ((cleanSMSBody s).data.all fun c => !isJsWs c || c == ' ') = true ∧
    ((cleanSMSBody s).data.head?.all fun c => !isJsWs c) = true ∧
    ((cleanSMSBody s).data.getLast?.all fun c => !isJsWs c) = true := by
  by_cases hs : s = ""
  · subst hs
    exact ⟨rfl, rfl, rfl, rfl⟩
  · simp only [cleanSMSBody, if_neg hs]
    exact trimCollapse_normal _

/-- C3 (amended): for every input, the email normalizer's output has no run
of more than one whitespace character, every whitespace character in it is a
plain space, and it neither starts nor ends with whitespace; literal markup
characters and non-whitespace control characters may survive. -/
theorem c3_email_whitespace_normal (s : String) :
    noTwoWsB (cleanEmailBody s).data = true ∧
    ((cleanEmailBody s).data.all fun c => !isJsWs c || c == ' ') = true ∧
    ((cleanEmailBody s).data.head?.all fun c => !isJsWs c) = true ∧
    ((cleanEmailBody s).data.getLast?.all fun c => !isJsWs c) = true :=
  cleanEmailBody_ws_normal s

theorem replCrLf_id : ∀ {l : List Char},
    (l.all fun c => !isJsWs c || c == ' ') = true → replCrLf l = l := by
  intro l
  induction l using replCrLf.induct with
  | case1 => intro _; rfl
  | case2 rest ih =>
      intro h
      simp only [List.all_cons, Bool.and_eq_true] at h
      exact absurd h.1 (by decide)
  | case3 c rest hne ih =>
      intro h
      simp only [List.all_cons, Bool.and_eq_true] at h
      rw [replCrLf]
      · rw [ih h.2]
      · exact hne

theorem replCr_id : ∀ {l : List Char},
    (l.all fun c => !isJsWs c || c == ' ') = true → replCr l = l := by
  intro l h
  induction l with
  | nil => rfl
  | cons c rest ih =>
      simp only [List.all_cons, Bool.and_eq_true] at h
      have hc : (c == '\r') = false := by
        rcases Bool.or_eq_true_iff.mp h.1 with h1 | h1
        · simp only [beq_eq_false_iff_ne, ne_eq]
          intro he
          subst he
          simp [isJsWs] at h1
        · simp only [beq_iff_eq] at h1
          subst h1
          rfl
      simp only [replCr, List.map_cons, hc, Bool.false_eq_true, if_false]
      exact congrArg _ (ih h.2)

theorem replNl_id : ∀ {l : List Char},
    (l.all fun c => !isJsWs c || c == ' ') = true → replNl l = l := by
  intro l h
  induction l with
  | nil => rfl
  | cons c rest ih =>
      simp only [List.all_cons, Bool.and_eq_true] at h
      have hc : (c == '\n') = false := by
        rcases Bool.or_eq_true_iff.mp h.1 with h1 | h1
        · simp only [beq_eq_false_iff_ne, ne_eq]
          intro he
          subst he
          simp [isJsWs] at h1
        · simp only [beq_iff_eq] at h1
          subst h1
          rfl
      simp only [replNl, List.map_cons, hc, Bool.false_eq_true, if_false]
      exact congrArg _ (ih h.2)

theorem removeEqWs_id : ∀ {l : List Char}, noEqWsB l = true → removeEqWs l = l := by
  intro l
  induction l using removeEqWs.induct with
  | case1 => intro _; rfl
  | case2 c rest hws ih =>
      intro h
      simp [noEqWsB, hws] at h
  | case3 c rest hws ih =>
      intro h
      rw [removeEqWs, if_neg hws]
      exact congrArg _ (ih (noEqWsB_tail h))
  | case4 c rest hne ih =>
      intro h
      rw [removeEqWs]
      · exact congrArg _ (ih (noEqWsB_tail h))
      · exact hne

theorem char_mem_of_not_noChar {x : Char} {l : List Char} (hm : x ∈ l) :
    noChar x l = false := by
  induction l with
  | nil => simp at hm
  | cons c rest ih =>
      rcases List.mem_cons.mp hm with h | h
      · subst h
        simp [noChar]
      · simp [noChar, List.all_cons]
        intro _
        have := ih h
        simpa [noChar] using this

theorem noChar_tail {x c : Char} {l : List Char} (h : noChar x (c :: l) = true) :
    noChar x l = true := by
  simp only [noChar, List.all_cons, Bool.and_eq_true] at h
  exact h.2

theorem noChar_head {x c : Char} {l : List Char} (h : noChar x (c :: l) = true) :
    c ≠ x := by
  simp only [noChar, List.all_cons, Bool.and_eq_true, Bool.not_eq_eq_eq_not,
    Bool.not_true, beq_eq_false_iff_ne, ne_eq] at h
  exact h.1

theorem replEqCrLf_id : ∀ {l : List Char}, noChar '=' l = true → replEqCrLf l = l := by
  intro l
  induction l using replEqCrLf.induct with
  | case1 => intro _; rfl
  | case2 rest ih =>
      intro h
      exact absurd rfl (noChar_head h)
  | case3 c rest hne ih =>
      intro h
      rw [replEqCrLf]
      · exact congrArg _ (ih (noChar_tail h))
      · exact hne

theorem repl3D_id : ∀ {l : List Char}, noChar '=' l = true → repl3D l = l := by
  intro l
  induction l using repl3D.induct with
  | case1 => intro _; rfl
  | case2 rest ih =>
      intro h
      exact absurd rfl (noChar_head h)
  | case3 c rest hne ih =>
      intro h
      rw [repl3D]
      · exact congrArg _ (ih (noChar_tail h))
      · exact hne

theorem replHex_id : ∀ {l : List Char}, noChar '=' l = true → replHex l = l := by
  intro l
  induction l using replHex.induct with
  | case1 => intro _; rfl
  | case2 a b rest hhex ih =>
      intro h
      exact absurd rfl (noChar_head h)
  | case3 a b rest hhex ih =>
      intro h
      exact absurd rfl (noChar_head h)
  | case4 c rest hne ih =>
      intro h
      rw [replHex]
      · exact congrArg _ (ih (noChar_tail h))
      · exact hne

theorem replDoctypeAux_id : ∀ (b : Bool) (l : List Char), b = false →
    noChar '<' l = true → replDoctypeAux b l = l := by
  intro b l
  induction b, l using replDoctypeAux.induct with
  | case1 rest ih => intro hb; cases hb
  | case2 c rest hne ih => intro hb; cases hb
  | case3 => intro hb; cases hb
  | case4 rest hcond ih =>
      intro _ h
      exact absurd rfl (noChar_head h)
  | case5 rest hcond =>
      intro _ h
      exact absurd rfl (noChar_head h)
  | case6 c rest hne ih =>
      intro _ h
      rw [replDoctypeAux]
      · exact congrArg _ (ih rfl (noChar_tail h))
      · exact hne
  | case7 => intro _ _; rfl

theorem replCommentAux_id : ∀ (b : Bool) (l : List Char), b = false →
    noChar '<' l = true → replCommentAux b l = l := by
  intro b l
  induction b, l using replCommentAux.induct with
  | case1 rest ih => intro hb; cases hb
  | case2 c rest hne ih => intro hb; cases hb
  | case3 => intro hb; cases hb
  | case4 rest hcond ih =>
      intro _ h
      exact absurd rfl (noChar_head h)
  | case5 rest hcond ih =>
      intro _ h
      exact absurd rfl (noChar_head h)
  | case6 c rest hne ih =>
      intro _ h
      rw [replCommentAux]
      · exact congrArg _ (ih rfl (noChar_tail h))
      · exact hne
  | case7 => intro _ _; rfl

theorem replSsAux_id : ∀ (m : SsMode) (l : List Char), m = SsMode.norm →
    noChar '<' l = true → replSsAux m l = l := by
  intro m l
  induction m, l using replSsAux.induct with
  | case1 rest hcond ih =>
      intro _ h
      exact absurd rfl (noChar_head h)
  | case2 rest hc1 hcond ih =>
      intro _ h
      exact absurd rfl (noChar_head h)
  | case3 rest hc1 hc2 =>
      intro _ h
      exact absurd rfl (noChar_head h)
  | case4 c rest hne ih =>
      intro _ h
      rw [replSsAux]
      · exact congrArg _ (ih rfl (noChar_tail h))
      · exact hne
  | case5 t rest ih => intro hb; cases hb
  | case6 t c rest hne ih => intro hb; cases hb
  | case7 c1 c2 c3 c4 c5 c6 rest hcond ih => intro hb; cases hb
  | case8 c1 c2 c3 c4 c5 c6 rest hcond ih => intro hb; cases hb
  | case9 c1 c2 c3 c4 c5 rest hcond ih => intro hb; cases hb
  | case10 c1 c2 c3 c4 c5 rest hcond ih => intro hb; cases hb
  | case11 t c rest hne ih => intro hb; cases hb
  | case12 m =>
      intro _ _
      cases m with
      | norm => rfl
      | toGt t => cases t <;> rfl
      | toClose t => cases t <;> rfl

theorem replTagsAux_id : ∀ (b : Bool) (l : List Char), b = false →
    noChar '<' l = true → replTagsAux b l = l := by
  intro b l
  induction b, l using replTagsAux.induct with
  | case1 rest ih => intro hb; cases hb
  | case2 c rest hne ih => intro hb; cases hb
  | case3 => intro hb; cases hb
  | case4 rest hcond ih =>
      intro _ h
      exact absurd rfl (noChar_head h)
  | case5 rest hcond =>
      intro _ h
      exact absurd rfl (noChar_head h)
  | case6 c rest hne ih =>
      intro _ h
      rw [replTagsAux]
      · exact congrArg _ (ih rfl (noChar_tail h))
      · exact hne
  | case7 => intro _ _; rfl

theorem replNbsp_id : ∀ {l : List Char}, noChar '&' l = true → replNbsp l = l := by
  intro l
  induction l using replNbsp.induct with
  | case1 => intro _; rfl
  | case2 rest ih => intro h; exact absurd rfl (noChar_head h)
  | case3 c rest hne ih =>
      intro h
      rw [replNbsp]
      · exact congrArg _ (ih (noChar_tail h))
      · exact hne

theorem replLt_id : ∀ {l : List Char}, noChar '&' l = true → replLt l = l := by
  intro l
  induction l using replLt.induct with
  | case1 => intro _; rfl
  | case2 rest ih => intro h; exact absurd rfl (noChar_head h)
  | case3 c rest hne ih =>
      intro h
      rw [replLt]
      · exact congrArg _ (ih (noChar_tail h))
      · exact hne

theorem replGt_id : ∀ {l : List Char}, noChar '&' l = true → replGt l = l := by
  intro l
  induction l using replGt.induct with
  | case1 => intro _; rfl
  | case2 rest ih => intro h; exact absurd rfl (noChar_head h)
  | case3 c rest hne ih =>
      intro h
      rw [replGt]
      · exact congrArg _ (ih (noChar_tail h))
      · exact hne

theorem replAmp_id : ∀ {l : List Char}, noChar '&' l = true → replAmp l = l := by
  intro l
  induction l using replAmp.induct with
  | case1 => intro _; rfl
  | case2 rest ih => intro h; exact absurd rfl (noChar_head h)
  | case3 c rest hne ih =>
      intro h
      rw [replAmp]
      · exact congrArg _ (ih (noChar_tail h))
      · exact hne

theorem replQuot_id : ∀ {l : List Char}, noChar '&' l = true → replQuot l = l := by
  intro l
  induction l using replQuot.induct with
  | case1 => intro _; rfl
  | case2 rest ih => intro h; exact absurd rfl (noChar_head h)
  | case3 c rest hne ih =>
      intro h
      rw [replQuot]
      · exact congrArg _ (ih (noChar_tail h))
      · exact hne

theorem replApos_id : ∀ {l : List Char}, noChar '&' l = true → replApos l = l := by
  intro l
  induction l using replApos.induct with
  | case1 => intro _; rfl
  | case2 rest ih => intro h; exact absurd rfl (noChar_head h)
  | case3 c rest hne ih =>
      intro h
      rw [replApos]
      · exact congrArg _ (ih (noChar_tail h))
      · exact hne

theorem collapseWsAux_id : ∀ (l : List Char) (b : Bool),
    (l.all fun c => !isJsWs c || c == ' ') = true →
    noTwoWsB l = true →
    (b = true → (l.head?.all fun c => !isJsWs c) = true) →
    collapseWsAux b l = l := by
  intro l
  induction l with
  | nil => intro b _ _ _; cases b <;> rfl
  | cons c rest ih =>
      intro b hall htwo hb
      simp only [List.all_cons, Bool.and_eq_true] at hall
      by_cases hc : isJsWs c = true
      · have hcsp : c = ' ' := by
          rcases Bool.or_eq_true_iff.mp hall.1 with h1 | h1
          · rw [hc] at h1; simp at h1
          · exact beq_iff_eq.mp h1
        have hbf : b = false := by
          cases b
          · rfl
          · have := hb rfl
            simp only [List.head?_cons, Option.all] at this
            rw [hc] at this
            simp at this
        subst hbf
        have hresthead : (rest.head?.all fun x => !isJsWs x) = true := by
          cases rest with
          | nil => rfl
          | cons x xs =>
              simp only [noTwoWsB, Bool.and_eq_true] at htwo
              have := htwo.1
              rw [hc] at this
              simp only [List.head?_cons, Option.all]
              simpa using this
        have hrec := ih true hall.2 (noTwoWsB_tail htwo) (fun _ => hresthead)
        simp only [collapseWsAux, hc, if_true, Bool.false_eq_true, if_false]
        rw [hrec, hcsp]
      · have hrec := ih false hall.2 (noTwoWsB_tail htwo) (by simp)
        simp only [collapseWsAux, hc, Bool.false_eq_true, if_false]
        rw [hrec]

theorem dropWhile_id_of_head {l : List Char}
    (h : (l.head?.all fun c => !isJsWs c) = true) : l.dropWhile isJsWs = l := by
  cases l with
  | nil => rfl
  | cons c rest =>
      simp only [List.head?_cons, Option.all] at h
      simp only [List.dropWhile_cons]
      rw [show isJsWs c = false from by simpa using h]
      simp

theorem trimWs_id {l : List Char} (hh : (l.head?.all fun c => !isJsWs c) = true)
    (hl : (l.getLast?.all fun c => !isJsWs c) = true) : trimWs l = l := by
  unfold trimWs
  rw [dropWhile_id_of_head hh]
  rw [dropWhile_id_of_head (by rw [List.head?_reverse]; exact hl), List.reverse_reverse]

/-- A whitespace-normal string free of residual `=`-whitespace artifacts is a
fixed point of the SMS normalizer. -/
theorem cleanSMSBody_fix {t : String}
    (hall : (t.data.all fun c => !isJsWs c || c == ' ') = true)
    (htwo : noTwoWsB t.data = true)
    (hhead : (t.data.head?.all fun c => !isJsWs c) = true)
    (hlast : (t.data.getLast?.all fun c => !isJsWs c) = true)
    (heq : noEqWsB t.data = true) : cleanSMSBody t = t := by
  by_cases ht : t = ""
  · subst ht; rfl
  · simp only [cleanSMSBody, if_neg ht]
    rw [replCrLf_id hall, replCr_id hall, replNl_id hall, removeEqWs_id heq]
    rw [show collapseWs t.data = t.data from collapseWsAux_id t.data false hall htwo (by simp)]
    rw [trimWs_id hhead hlast]

/-- A whitespace-normal string free of `=`, `<` and `&` is a fixed point of
the email normalizer. -/
theorem cleanEmailBody_fix {t : String}
    (hall : (t.data.all fun c => !isJsWs c || c == ' ') = true)
    (htwo : noTwoWsB t.data = true)
    (hhead : (t.data.head?.all fun c => !isJsWs c) = true)
    (hlast : (t.data.getLast?.all fun c => !isJsWs c) = true)
    (heq : noChar '=' t.data = true)
    (hlt : noChar '<' t.data = true)
    (hamp : noChar '&' t.data = true) : cleanEmailBody t = t := by
  by_cases ht : t = ""
  · subst ht; rfl
  · simp only [cleanEmailBody, if_neg ht]
    rw [replEqCrLf_id heq, repl3D_id heq, replHex_id heq,
      replDoctypeAux_id false t.data rfl hlt, replCommentAux_id false t.data rfl hlt,
      replSsAux_id SsMode.norm t.data rfl hlt, replTagsAux_id false t.data rfl hlt,
      replNbsp_id hamp, replLt_id hamp, replGt_id hamp, replAmp_id hamp,
      replQuot_id hamp, replApos_id hamp,
      replCrLf_id hall, replCr_id hall, replNl_id hall]
    rw [show collapseWs t.data = t.data from collapseWsAux_id t.data false hall htwo (by simp)]
    rw [trimWs_id hhead hlast]

/-- C2 (counterexample): the SMS normalizer is not idempotent.  On the input
holding two equals signs and two spaces before a letter, the global
`=`-whitespace deletion consumes the second equals sign with the first space
and then resumes after the pair, leaving the first equals sign adjacent to
the second space, so a second normalization deletes more. -/
theorem c2_counterexample :
    ¬(cleanSMSBody (cleanSMSBody "==  a") = cleanSMSBody "==  a") := by
  decide

/-- C2 (amended): each channel's normalizer is idempotent on every input
whose normalized form is free of residual artifacts: for sms, no `=`
immediately before a whitespace character remains in the output; for email,
no `=`, `<` or `&` remains in the output.  Without these conditions
idempotence fails. -/
theorem c2_conditional_idempotence (s e : String) :
    (noEqWsB (cleanSMSBody s).data = true →
      cleanSMSBody (cleanSMSBody s) = cleanSMSBody s) ∧
    ((noChar '=' (cleanEmailBody e).data && noChar '<' (cleanEmailBody e).data &&
        noChar '&' (cleanEmailBody e).data) = true →
      cleanEmailBody (cleanEmailBody e) = cleanEmailBody e) := by
  constructor
  · intro h
    obtain ⟨htwo, hall, hhead, hlast⟩ := cleanSMSBody_ws_normal s
    exact cleanSMSBody_fix hall htwo hhead hlast h
  · intro h
    simp only [Bool.and_eq_true] at h
    obtain ⟨htwo, hall, hhead, hlast⟩ := cleanEmailBody_ws_normal e
    exact cleanEmailBody_fix hall htwo hhead hlast h.1.1 h.1.2 h.2

/-- C2 (witness for the amended claim): idempotence on concrete clean
inputs for both channels. -/
theorem c2_conditional_idempotence_witness :
    cleanSMSBody (cleanSMSBody "Your OTP is 482913") = cleanSMSBody "Your OTP is 482913" ∧
    cleanEmailBody (cleanEmailBody "Your code: 7721 now") = cleanEmailBody "Your code: 7721 now" :=
  ⟨(c2_conditional_idempotence "Your OTP is 482913" "Your code: 7721 now").1 (by decide),
   (c2_conditional_idempotence "Your OTP is 482913" "Your code: 7721 now").2 (by decide)⟩

/-- C9 (witness): a message carrying no content at all is a non-match for
both channels. -/
theorem c9_absent_fields_nonmatch_witness :
    smsCandidate "+15551234567" { Content := none, To := none } = Candidate.nomatch ∧
    emailCandidate "a@b.com" { Content := none, To := none } = Candidate.nomatch :=
  ⟨(c9_absent_fields_nonmatch "+15551234567" "a@b.com" { Content := none, To := none }).1 rfl,
   (c9_absent_fields_nonmatch "+15551234567" "a@b.com" { Content := none, To := none }).2
     (Or.inl rfl)⟩

/-! ## Word-boundary scanner lemmas -/

theorem isDigit_isWordChar {c : Char} (h : c.isDigit = true) : isWordChar c = true := by
  simp [isWordChar, Char.isAlphanum, h]

theorem nonWordO_some_digit {c : Char} (h : c.isDigit = true) :
    nonWordO (some c) = false := by
  simp [nonWordO, isDigit_isWordChar h]

theorem not_digit_of_nonWordO {c : Char} (h : nonWordO (some c) = true) :
    c.isDigit = false := by
  by_cases hd : c.isDigit = true
  · rw [nonWordO_some_digit hd] at h
    exact absurd h (by simp)
  · simpa using hd

theorem lastO_cons (prev : Option Char) (c : Char) (l : List Char) :
    lastO prev (c :: l) = lastO (some c) l := by
  cases l with
  | nil => simp [lastO]
  | cons x xs =>
      unfold lastO
      rw [List.getLast?_cons_cons]
      cases h : (x :: xs).getLast? with
      | none => exact absurd h (by simp [List.getLast?_eq_none_iff])
      | some z => rfl

theorem standaloneRunAt_66 (prev : Option Char) (l : List Char) :
    standaloneRunAt 6 6 prev l =
      (nonWordO prev && (digitsTake 6 l && nonWordO (l.drop 6).head?)) := by
  have h : List.range' 6 (6 + 1 - 6) = [6] := rfl
  simp [standaloneRunAt, h]

theorem standaloneRunAt_57 (prev : Option Char) (l : List Char) :
    standaloneRunAt 5 7 prev l =
      (nonWordO prev && ((digitsTake 5 l && nonWordO (l.drop 5).head?) ||
        (digitsTake 6 l && nonWordO (l.drop 6).head?) ||
        (digitsTake 7 l && nonWordO (l.drop 7).head?))) := by
  have h : List.range' 5 (7 + 1 - 5) = [5, 6, 7] := rfl
  simp [standaloneRunAt, h, Bool.or_assoc]

theorem scan6_none : ∀ (prev : Option Char) (l : List Char),
    hasStandaloneRun 6 6 prev l = false → scan try6 prev l = none := by
  intro prev l
  induction l generalizing prev with
  | nil => intro _; rfl
  | cons c rest ih =>
      intro h
      rw [hasStandaloneRun, Bool.or_eq_false_iff] at h
      have htry : try6 prev (c :: rest) = none := by
        unfold try6
        rw [if_neg]
        intro hc
        have : standaloneRunAt 6 6 prev (c :: rest) = true := by
          rw [standaloneRunAt_66]
          simp only [Bool.and_eq_true] at hc ⊢
          exact ⟨hc.1.1, hc.1.2, hc.2⟩
        rw [this] at h
        exact absurd h.1 (by simp)
      simp only [scan, htry]
      exact ih (some c) h.2

/-- A window of `L` digits ending in a word boundary cannot start at a
position strictly inside the leading segment `c :: rem'` when that segment
contains no standalone run of length in `[lo, hi]` and ends in a non-word
character followed by the digit run `R`. -/
theorem window_fail (lo hi L : Nat) (hlo : lo ≤ L) (hhi : L ≤ hi)
    (prev : Option Char) (c : Char) (rem' R post : List Char)
    (hlast : nonWordO (lastO prev (c :: rem')) = true)
    (hRne : R ≠ []) (hRd : R.all Char.isDigit = true)
    (hrunAt : standaloneRunAt lo hi prev (c :: rem') = false)
    (hw : nonWordO prev = true)
    (hdt : digitsTake L ((c :: rem') ++ (R ++ post)) = true)
    (hnext : nonWordO ((((c :: rem') ++ (R ++ post))).drop L).head? = true) : False := by
  rcases Nat.lt_trichotomy L (c :: rem').length with hLn | hLn | hLn
  · have htake : ((c :: rem') ++ (R ++ post)).take L = (c :: rem').take L := by
      rw [List.take_append_eq_append_take, Nat.sub_eq_zero_of_le (le_of_lt hLn)]
      simp
    have hdrop : ((c :: rem') ++ (R ++ post)).drop L = (c :: rem').drop L ++ (R ++ post) := by
      rw [List.drop_append_eq_append_drop, Nat.sub_eq_zero_of_le (le_of_lt hLn)]
      simp
    have hdne : (c :: rem').drop L ≠ [] := by
      intro he
      rw [List.drop_eq_nil_iff] at he
      simp only [List.length_cons] at he hLn
      omega
    have hh : (((c :: rem') ++ (R ++ post)).drop L).head? = ((c :: rem').drop L).head? := by
      rw [hdrop, List.head?_append]
      cases hc2 : ((c :: rem').drop L).head? with
      | none => exact absurd (List.head?_eq_none_iff.mp hc2) hdne
      | some y => rfl
    have h1 : digitsTake L (c :: rem') = true := by
      unfold digitsTake at hdt ⊢
      rw [htake] at hdt
      exact hdt
    have h2 : nonWordO ((c :: rem').drop L).head? = true := by
      rw [← hh]
      exact hnext
    have hcontra : standaloneRunAt lo hi prev (c :: rem') = true := by
      unfold standaloneRunAt
      rw [hw, Bool.true_and, List.any_eq_true]
      refine ⟨L, ?_, by rw [h1, h2]; rfl⟩
      rw [List.mem_range'_1]
      omega
    rw [hcontra] at hrunAt
    exact absurd hrunAt (by simp)
  · have hdrop : ((c :: rem') ++ (R ++ post)).drop L = R ++ post :=
      List.drop_left' hLn.symm
    cases R with
    | nil => exact hRne rfl
    | cons r0 R' =>
        have hr0 : r0.isDigit = true := by
          simp only [List.all_cons, Bool.and_eq_true] at hRd
          exact hRd.1
        rw [hdrop] at hnext
        simp only [List.cons_append, List.head?_cons] at hnext
        rw [nonWordO_some_digit hr0] at hnext
        exact absurd hnext (by simp)
  · have hne : (c :: rem') ≠ [] := by simp
    have hzlast : (c :: rem').getLast? = some ((c :: rem').getLast hne) :=
      List.getLast?_eq_getLast _ hne
    have hznw : nonWordO (some ((c :: rem').getLast hne)) = true := by
      unfold lastO at hlast
      rw [hzlast] at hlast
      exact hlast
    have hznd : ((c :: rem').getLast hne).isDigit = false := not_digit_of_nonWordO hznw
    have htake : ((c :: rem') ++ (R ++ post)).take L =
        (c :: rem') ++ (R ++ post).take (L - (c :: rem').length) := by
      rw [List.take_append_eq_append_take, List.take_of_length_le (Nat.le_of_lt hLn)]
    have hzmem : (c :: rem').getLast hne ∈ ((c :: rem') ++ (R ++ post)).take L := by
      rw [htake]
      exact List.mem_append_left _ (List.getLast_mem hne)
    unfold digitsTake at hdt
    simp only [Bool.and_eq_true, List.all_eq_true] at hdt
    have := hdt.2 _ hzmem
    rw [hznd] at this
    exact absurd this (by simp)

/-- The length-and-digits window test fails when it would have to reach past
the digit run `R` into a word boundary. -/
theorem digitsTake_over_run_false {R post : List Char} {L : Nat} (hRlen : R.length < L)
    (hRd : R.all Char.isDigit = true) (hpost : nonWordO post.head? = true) :
    digitsTake L (R ++ post) = false := by
  unfold digitsTake
  cases post with
  | nil =>
      rw [List.append_nil, List.take_of_length_le (Nat.le_of_lt hRlen)]
      simp [Nat.ne_of_lt hRlen]
  | cons p ps =>
      have hp : p.isDigit = false := not_digit_of_nonWordO (by simpa using hpost)
      rw [List.take_append_eq_append_take, List.take_of_length_le (Nat.le_of_lt hRlen)]
      have hL : L - R.length = (L - R.length - 1) + 1 := by omega
      rw [hL, List.take_succ_cons]
      simp [List.all_append, hp]

theorem digitsTake_run_exact {R : List Char} (post : List Char) {L : Nat}
    (hR : R.length = L) (hRd : R.all Char.isDigit = true) :
    digitsTake L (R ++ post) = true := by
  unfold digitsTake
  rw [List.take_left' hR]
  simp [hR, hRd]

theorem try6_succeeds (prev : Option Char) (R post : List Char)
    (hprev : nonWordO prev = true) (hR6 : R.length = 6)
    (hRd : R.all Char.isDigit = true) (hpost : nonWordO post.head? = true) :
    try6 prev (R ++ post) = some R := by
  have hcond : (nonWordO prev && digitsTake 6 (R ++ post) &&
      nonWordO (((R ++ post)).drop 6).head?) = true := by
    rw [List.drop_left' hR6, digitsTake_run_exact post hR6 hRd, hprev, hpost]
    rfl
  unfold try6
  rw [if_pos hcond, List.take_left' hR6]

theorem try57_succeeds (prev : Option Char) (R post : List Char)
    (hprev : nonWordO prev = true) (hlen : R.length = 5 ∨ R.length = 7)
    (hRd : R.all Char.isDigit = true) (hpost : nonWordO post.head? = true) :
    try57 prev (R ++ post) = some R := by
  unfold try57
  rw [if_neg (by simp [hprev])]
  rcases hlen with h5 | h7
  · have f7 : digitsTake 7 (R ++ post) = false :=
      digitsTake_over_run_false (by omega) hRd hpost
    have f6 : digitsTake 6 (R ++ post) = false :=
      digitsTake_over_run_false (by omega) hRd hpost
    rw [if_neg (by simp [f7]), if_neg (by simp [f6])]
    rw [if_pos (by rw [digitsTake_run_exact post h5 hRd, List.drop_left' h5, hpost]; rfl)]
    rw [List.take_left' h5]
  · rw [if_pos (by rw [digitsTake_run_exact post h7 hRd, List.drop_left' h7, hpost]; rfl)]
    rw [List.take_left' h7]

theorem scan6_finds : ∀ (rem : List Char) (prev : Option Char) (R post : List Char),
    hasStandaloneRun 6 6 prev rem = false →
    nonWordO (lastO prev rem) = true →
    R.length = 6 → R.all Char.isDigit = true →
    nonWordO post.head? = true →
    scan try6 prev (rem ++ (R ++ post)) = some R := by
  intro rem
  induction rem with
  | nil =>
      intro prev R post hrun hlast hR6 hRd hpost
      have hprev : nonWordO prev = true := by simpa [lastO] using hlast
      cases R with
      | nil => simp at hR6
      | cons r0 R' =>
          have htry := try6_succeeds prev (r0 :: R') post hprev hR6 hRd hpost
          rw [List.cons_append] at htry
          rw [List.nil_append, List.cons_append, scan, htry]
  | cons c rem' ih =>
      intro prev R post hrun hlast hR6 hRd hpost
      rw [hasStandaloneRun, Bool.or_eq_false_iff] at hrun
      have hRne : R ≠ [] := by
        intro he
        rw [he] at hR6
        simp at hR6
      have htry : try6 prev ((c :: rem') ++ (R ++ post)) = none := by
        unfold try6
        rw [if_neg]
        intro hc
        simp only [Bool.and_eq_true] at hc
        exact window_fail 6 6 6 le_rfl le_rfl prev c rem' R post hlast hRne hRd hrun.1
          hc.1.1 hc.1.2 hc.2
      rw [List.cons_append] at htry ⊢
      simp only [scan, htry]
      have hlast' : nonWordO (lastO (some c) rem') = true := by
        rw [← lastO_cons]
        exact hlast
      exact ih (some c) R post hrun.2 hlast' hR6 hRd hpost

theorem try57_fails (prev : Option Char) (c : Char) (rem' R post : List Char)
    (hlast : nonWordO (lastO prev (c :: rem')) = true)
    (hRne : R ≠ []) (hRd : R.all Char.isDigit = true)
    (hrunAt : standaloneRunAt 5 7 prev (c :: rem') = false) :
    try57 prev ((c :: rem') ++ (R ++ post)) = none := by
  unfold try57
  by_cases hw : nonWordO prev = true
  · rw [if_neg (by simp [hw])]
    have f7 : (digitsTake 7 ((c :: rem') ++ (R ++ post)) &&
        nonWordO ((((c :: rem') ++ (R ++ post))).drop 7).head?) = false := by
      rcases Bool.eq_false_or_eq_true (digitsTake 7 ((c :: rem') ++ (R ++ post)) &&
          nonWordO ((((c :: rem') ++ (R ++ post))).drop 7).head?) with h | h
      · exfalso
        simp only [Bool.and_eq_true] at h
        exact window_fail 5 7 7 (by omega) (by omega) prev c rem' R post hlast hRne hRd
          hrunAt hw h.1 h.2
      · exact h
    have f6 : (digitsTake 6 ((c :: rem') ++ (R ++ post)) &&
        nonWordO ((((c :: rem') ++ (R ++ post))).drop 6).head?) = false := by
      rcases Bool.eq_false_or_eq_true (digitsTake 6 ((c :: rem') ++ (R ++ post)) &&
          nonWordO ((((c :: rem') ++ (R ++ post))).drop 6).head?) with h | h
      · exfalso
        simp only [Bool.and_eq_true] at h
        exact window_fail 5 7 6 (by omega) (by omega) prev c rem' R post hlast hRne hRd
          hrunAt hw h.1 h.2
      · exact h
    have f5 : (digitsTake 5 ((c :: rem') ++ (R ++ post)) &&
        nonWordO ((((c :: rem') ++ (R ++ post))).drop 5).head?) = false := by
      rcases Bool.eq_false_or_eq_true (digitsTake 5 ((c :: rem') ++ (R ++ post)) &&
          nonWordO ((((c :: rem') ++ (R ++ post))).drop 5).head?) with h | h
      · exfalso
        simp only [Bool.and_eq_true] at h
        exact window_fail 5 7 5 (by omega) (by omega) prev c rem' R post hlast hRne hRd
          hrunAt hw h.1 h.2
      · exact h
    simp at f7 f6 f5
    rw [if_neg (by simp; exact f7), if_neg (by simp; exact f6), if_neg (by simp; exact f5)]
  · have hw' : nonWordO prev = false := by simpa using hw
    simp [hw']

theorem scan57_finds : ∀ (rem : List Char) (prev : Option Char) (R post : List Char),
    hasStandaloneRun 5 7 prev rem = false →
    nonWordO (lastO prev rem) = true →
    R.length = 5 ∨ R.length = 7 → R.all Char.isDigit = true →
    nonWordO post.head? = true →
    scan try57 prev (rem ++ (R ++ post)) = some R := by
  intro rem
  induction rem with
  | nil =>
      intro prev R post hrun hlast hlen hRd hpost
      have hprev : nonWordO prev = true := by simpa [lastO] using hlast
      cases R with
      | nil => rcases hlen with h | h <;> simp at h
      | cons r0 R' =>
          have htry := try57_succeeds prev (r0 :: R') post hprev hlen hRd hpost
          rw [List.cons_append] at htry
          rw [List.nil_append, List.cons_append, scan, htry]
  | cons c rem' ih =>
      intro prev R post hrun hlast hlen hRd hpost
      rw [hasStandaloneRun, Bool.or_eq_false_iff] at hrun
      have hRne : R ≠ [] := by
        intro he
        rw [he] at hlen
        rcases hlen with h | h <;> simp at h
      have htry := try57_fails prev c rem' R post hlast hRne hRd hrun.1
      rw [List.cons_append] at htry ⊢
      simp only [scan, htry]
      have hlast' : nonWordO (lastO (some c) rem') = true := by
        rw [← lastO_cons]
        exact hlast
      exact ih (some c) R post hrun.2 hlast' hlen hRd hpost

/-- C5: when the input contains a standalone word-boundary-delimited run of
exactly six digits, the extractor returns the first such run verbatim via
strategy 1, before any other strategy is consulted.  The run `R` is the
first: the prefix before it contains no standalone six-digit run. -/
theorem c5_first_six_digit_run (s : String) (pre R post : List Char)
    (hsplit : s.data = pre ++ (R ++ post))
    (hR6 : R.length = 6) (hRd : R.all Char.isDigit = true)
    (hb1 : nonWordO (lastO none pre) = true)
    (hb2 : nonWordO post.head? = true)
    (hfirst : hasStandaloneRun 6 6 none pre = false) :
    extractVerificationCode s = some (String.mk R) := by
  have hne : s ≠ "" := by
    intro he
    rw [he] at hsplit
    have hlen := congrArg List.length hsplit
    rw [show ("" : String).data = [] from rfl] at hlen
    simp [List.length_append] at hlen
    omega
  unfold extractVerificationCode
  rw [if_neg hne]
  have h1 : scan try6 none s.data = some R := by
    rw [hsplit]
    exact scan6_finds pre none R post hfirst hb1 hR6 hRd hb2
  simp only [h1]

/-- C5 (witness): the specification's own example input. -/
theorem c5_first_six_digit_run_witness :
    extractVerificationCode "Your code is: 482913." = some "482913" := by
  have h := c5_first_six_digit_run "Your code is: 482913." ("Your code is: ".data)
    ['4', '8', '2', '9', '1', '3'] ['.'] (by decide) (by decide) (by decide)
    (by decide) (by decide) (by decide)
  exact h

/-- C4: when the input has a standalone run of five to seven digits but no
standalone run of exactly six, the extractor acts on the first such run via
strategy 2: a seven-digit run is truncated to its first six digits and a
five-digit run is returned unchanged (`take 6` leaves a five-element list
unchanged). -/
theorem c4_five_to_seven_truncation (s : String) (pre R post : List Char)
    (hsplit : s.data = pre ++ (R ++ post))
    (hlen : R.length = 5 ∨ R.length = 7)
    (hRd : R.all Char.isDigit = true)
    (hb1 : nonWordO (lastO none pre) = true)
    (hb2 : nonWordO post.head? = true)
    (hno6 : hasStandaloneRun 6 6 none s.data = false)
    (hfirst : hasStandaloneRun 5 7 none pre = false) :
    extractVerificationCode s = some (String.mk (R.take 6)) := by
  have hne : s ≠ "" := by
    intro he
    rw [he] at hsplit
    have hl := congrArg List.length hsplit
    rw [show ("" : String).data = [] from rfl] at hl
    simp [List.length_append] at hl
    rcases hlen with h | h <;> omega
  unfold extractVerificationCode
  rw [if_neg hne]
  have h1 : scan try6 none s.data = none := scan6_none none s.data hno6
  have h2 : scan try57 none s.data = some R := by
    rw [hsplit]
    exact scan57_finds pre none R post hfirst hb1 hlen hRd hb2
  simp only [h1, h2]
  rcases hlen with h5 | h7
  · rw [if_neg (by simp [h5]), if_neg (by simp [h5])]
    rw [List.take_of_length_le (by simp [h5])]
  · rw [if_neg (by simp [h7]), if_pos (by simp [h7])]

/-- C4 (witness): the specification's own example, a bare seven-digit run
truncated to its first six digits. -/
theorem c4_five_to_seven_truncation_witness :
    extractVerificationCode "4829135" = some "482913" := by
  have h := c4_five_to_seven_truncation "4829135" [] ("4829135".data) []
    (by decide) (by decide) (by decide) (by decide) (by decide) (by decide) (by decide)
  exact h

/-! ## Lemmas for the eight-digit-run analysis (claim C10) -/

theorem drop_head_digit {R q : List Char} {k : Nat} (hk : k < R.length)
    (hRd : R.all Char.isDigit = true) :
    ∃ dc, ((R ++ q).drop k).head? = some dc ∧ dc.isDigit = true := by
  rw [List.head?_drop]
  have hk' : k < (R ++ q).length := by
    rw [List.length_append]
    omega
  rw [List.getElem?_eq_getElem hk']
  refine ⟨(R ++ q)[k], rfl, ?_⟩
  have he : (R ++ q)[k] = R[k] := List.getElem_append_left hk
  rw [he]
  rw [List.all_eq_true] at hRd
  exact hRd _ (List.getElem_mem hk)

theorem digitsTake_head_false {L : Nat} (hL : 1 ≤ L) {x : Char} {rest : List Char}
    (hx : x.isDigit = false) : digitsTake L (x :: rest) = false := by
  unfold digitsTake
  obtain ⟨L', rfl⟩ : ∃ L', L = L' + 1 := ⟨L - 1, by omega⟩
  rw [List.take_succ_cons]
  simp [hx]

theorem try6_none_head {prev : Option Char} {x : Char} {rest : List Char}
    (hx : x.isDigit = false) : try6 prev (x :: rest) = none := by
  unfold try6
  rw [if_neg]
  intro hc
  simp only [Bool.and_eq_true] at hc
  exact absurd hc.1.2 (by simp [digitsTake_head_false (L := 6) (by omega) hx])

theorem try57_none_head {prev : Option Char} {x : Char} {rest : List Char}
    (hx : x.isDigit = false) : try57 prev (x :: rest) = none := by
  unfold try57
  by_cases hw : nonWordO prev = true
  · rw [if_neg (by simp [hw])]
    rw [if_neg (by simp [digitsTake_head_false (by omega : 1 ≤ 7) hx]),
      if_neg (by simp [digitsTake_head_false (by omega : 1 ≤ 6) hx]),
      if_neg (by simp [digitsTake_head_false (by omega : 1 ≤ 5) hx])]
  · have hw' : nonWordO prev = false := by simpa using hw
    simp [hw']

theorem scan6_nodigit_none : ∀ (l : List Char) (prev : Option Char),
    (∀ x ∈ l, x.isDigit = false) → scan try6 prev l = none := by
  intro l
  induction l with
  | nil => intro _ _; rfl
  | cons x rest ih =>
      intro prev h
      have htry : try6 prev (x :: rest) = none := try6_none_head (h x (by simp))
      simp only [scan, htry]
      exact ih (some x) (fun y hy => h y (by simp [hy]))

theorem scan57_nodigit_none : ∀ (l : List Char) (prev : Option Char),
    (∀ x ∈ l, x.isDigit = false) → scan try57 prev l = none := by
  intro l
  induction l with
  | nil => intro _ _; rfl
  | cons x rest ih =>
      intro prev h
      have htry : try57 prev (x :: rest) = none := try57_none_head (h x (by simp))
      simp only [scan, htry]
      exact ih (some x) (fun y hy => h y (by simp [hy]))

theorem try6_none_word_prev {pc : Char} (hpc : pc.isDigit = true) (l : List Char) :
    try6 (some pc) l = none := by
  unfold try6
  rw [if_neg]
  intro hc
  simp only [Bool.and_eq_true] at hc
  rw [nonWordO_some_digit hpc] at hc
  exact absurd hc.1.1 (by simp)

theorem try57_none_word_prev {pc : Char} (hpc : pc.isDigit = true) (l : List Char) :
    try57 (some pc) l = none := by
  unfold try57
  rw [if_pos]
  simp [nonWordO_some_digit hpc]

theorem scan6_run_none : ∀ (R' : List Char) (pc : Char) (post : List Char),
    pc.isDigit = true → R'.all Char.isDigit = true →
    (∀ x ∈ post, x.isDigit = false) →
    scan try6 (some pc) (R' ++ post) = none := by
  intro R'
  induction R' with
  | nil =>
      intro pc post _ _ hpost
      simpa using scan6_nodigit_none post (some pc) hpost
  | cons r R'' ih =>
      intro pc post hpc hRd hpost
      simp only [List.all_cons, Bool.and_eq_true] at hRd
      have htry := try6_none_word_prev hpc (r :: (R'' ++ post))
      rw [List.cons_append]
      simp only [scan, htry]
      exact ih r post hRd.1 hRd.2 hpost

theorem scan57_run_none : ∀ (R' : List Char) (pc : Char) (post : List Char),
    pc.isDigit = true → R'.all Char.isDigit = true →
    (∀ x ∈ post, x.isDigit = false) →
    scan try57 (some pc) (R' ++ post) = none := by
  intro R'
  induction R' with
  | nil =>
      intro pc post _ _ hpost
      simpa using scan57_nodigit_none post (some pc) hpost
  | cons r R'' ih =>
      intro pc post hpc hRd hpost
      simp only [List.all_cons, Bool.and_eq_true] at hRd
      have htry := try57_none_word_prev hpc (r :: (R'' ++ post))
      rw [List.cons_append]
      simp only [scan, htry]
      exact ih r post hRd.1 hRd.2 hpost

/-- Strategy 1 finds nothing in a string whose only digits form one run of
exactly eight digits: no window of six digits can end at a word boundary. -/
theorem scan6_eight_none : ∀ (pre : List Char) (prev : Option Char) {R post : List Char},
    (∀ x ∈ pre, x.isDigit = false) →
    R.length = 8 → R.all Char.isDigit = true →
    (∀ x ∈ post, x.isDigit = false) →
    scan try6 prev (pre ++ (R ++ post)) = none := by
  intro pre
  induction pre with
  | nil =>
      intro prev R post _ hR hRd hpost
      cases R with
      | nil => simp at hR
      | cons r0 R' =>
          have htry : try6 prev ((r0 :: R') ++ post) = none := by
            unfold try6
            rw [if_neg]
            intro hc
            simp only [Bool.and_eq_true] at hc
            obtain ⟨dc, hdch, hdcd⟩ := drop_head_digit (q := post) (k := 6)
              (by omega) hRd
            rw [hdch] at hc
            rw [nonWordO_some_digit hdcd] at hc
            exact absurd hc.2 (by simp)
          rw [List.cons_append] at htry
          rw [List.nil_append, List.cons_append]
          simp only [scan, htry]
          have hR'd : R'.all Char.isDigit = true := by
            simp only [List.all_cons, Bool.and_eq_true] at hRd
            exact hRd.2
          have hr0 : r0.isDigit = true := by
            simp only [List.all_cons, Bool.and_eq_true] at hRd
            exact hRd.1
          exact scan6_run_none R' r0 post hr0 hR'd hpost
  | cons x pre' ih =>
      intro prev R post hpre hR hRd hpost
      have htry : try6 prev (x :: (pre' ++ (R ++ post))) = none :=
        try6_none_head (hpre x (by simp))
      rw [List.cons_append]
      simp only [scan, htry]
      exact ih (some x) (fun y hy => hpre y (by simp [hy])) hR hRd hpost

/-- Strategy 2 finds nothing either: windows of five to seven digits inside
an eight-digit run always abut a further digit. -/
theorem scan57_eight_none : ∀ (pre : List Char) (prev : Option Char) {R post : List Char},
    (∀ x ∈ pre, x.isDigit = false) →
    R.length = 8 → R.all Char.isDigit = true →
    (∀ x ∈ post, x.isDigit = false) →
    scan try57 prev (pre ++ (R ++ post)) = none := by
  intro pre
  induction pre with
  | nil =>
      intro prev R post _ hR hRd hpost
      cases R with
      | nil => simp at hR
      | cons r0 R' =>
          have htry : try57 prev ((r0 :: R') ++ post) = none := by
            unfold try57
            by_cases hw : nonWordO prev = true
            · rw [if_neg (by simp [hw])]
              obtain ⟨d7, h7h, h7d⟩ := drop_head_digit (q := post) (k := 7)
                (by omega) hRd
              obtain ⟨d6, h6h, h6d⟩ := drop_head_digit (q := post) (k := 6)
                (by omega) hRd
              obtain ⟨d5, h5h, h5d⟩ := drop_head_digit (q := post) (k := 5)
                (by omega) hRd
              rw [if_neg (by rw [h7h]; simp [nonWordO_some_digit h7d]),
                if_neg (by rw [h6h]; simp [nonWordO_some_digit h6d]),
                if_neg (by rw [h5h]; simp [nonWordO_some_digit h5d])]
            · have hw' : nonWordO prev = false := by simpa using hw
              simp [hw']
          rw [List.cons_append] at htry
          rw [List.nil_append, List.cons_append]
          simp only [scan, htry]
          have hR'd : R'.all Char.isDigit = true := by
            simp only [List.all_cons, Bool.and_eq_true] at hRd
            exact hRd.2
          have hr0 : r0.isDigit = true := by
            simp only [List.all_cons, Bool.and_eq_true] at hRd
            exact hRd.1
          exact scan57_run_none R' r0 post hr0 hR'd hpost
  | cons x pre' ih =>
      intro prev R post hpre hR hRd hpost
      have htry : try57 prev (x :: (pre' ++ (R ++ post))) = none :=
        try57_none_head (hpre x (by simp))
      rw [List.cons_append]
      simp only [scan, htry]
      exact ih (some x) (fun y hy => hpre y (by simp [hy])) hR hRd hpost

theorem takeWhile_append_of_all {p : Char → Bool} {R post : List Char}
    (h : R.all p = true) :
    (R ++ post).takeWhile p = R ++ post.takeWhile p := by
  induction R with
  | nil => simp
  | cons a R' ih =>
      simp only [List.all_cons, Bool.and_eq_true] at h
      simp [List.takeWhile_cons, h.1, ih h.2]

theorem takeWhile_nil_of_all_not {p : Char → Bool} {l : List Char}
    (h : ∀ x ∈ l, p x = false) : l.takeWhile p = [] := by
  cases l with
  | nil => rfl
  | cons c rest => simp [List.takeWhile_cons, h c (by simp)]

theorem takeDigits8_run {R post : List Char} (hR : R.length = 8)
    (hRd : R.all Char.isDigit = true) (hpost : ∀ x ∈ post, x.isDigit = false) :
    takeDigits8 (R ++ post) = R := by
  unfold takeDigits8
  rw [takeWhile_append_of_all hRd, takeWhile_nil_of_all_not hpost, List.append_nil]
  exact List.take_of_length_le (by omega)

theorem ws_not_digit {c : Char} (h : isJsWs c = true) : c.isDigit = false := by
  by_cases hd : c.isDigit = true
  · exfalso
    have h0 : '0' ≤ c ∧ c ≤ '9' := by
      simpa [Char.isDigit, Bool.and_eq_true, decide_eq_true_eq] using hd
    simp only [isJsWs, Bool.or_eq_true, beq_iff_eq, Bool.and_eq_true,
      decide_eq_true_eq] at h
    rcases h with ((((((((((((((h | h) | h) | h) | h) | h) | h) | h) | h) | h) | h) | h) | h) | h) | h)
    all_goals first
      | (subst h; exact absurd hd (by decide))
      | (exact absurd (le_trans h.1 h0.2) (by decide))
  · simpa using hd

theorem isDigit_asciiLower_fix {c : Char} (h : c.isDigit = true) : asciiLower c = c := by
  unfold asciiLower
  rw [if_neg]
  intro hc
  simp only [Bool.and_eq_true, decide_eq_true_eq] at hc
  have h0 : '0' ≤ c ∧ c ≤ '9' := by
    simpa [Char.isDigit, Bool.and_eq_true, decide_eq_true_eq] using h
  exact absurd (le_trans hc.1 h0.2) (by decide)

theorem nondigit_of_lower_e {z : Char} (h : asciiLower z = 'e') : z.isDigit = false := by
  by_cases hd : z.isDigit = true
  · rw [isDigit_asciiLower_fix hd] at h
    subst h
    exact absurd hd (by decide)
  · simpa using hd

theorem forall2_last {Rel : Char → Char → Prop} :
    ∀ {u pat : List Char}, List.Forall₂ Rel u pat →
      ∀ {z : Char}, u.getLast? = some z → ∃ p, pat.getLast? = some p ∧ Rel z p := by
  intro u pat h
  induction h with
  | nil => intro z hz; simp at hz
  | @cons a b as bs hab htail ih =>
      intro z hz
      cases htail with
      | nil =>
          simp only [List.getLast?_singleton, Option.some.injEq] at hz
          subst hz
          exact ⟨b, by simp, hab⟩
      | @cons a2 b2 as' bs' hab2 htail2 =>
          rw [List.getLast?_cons_cons] at hz
          obtain ⟨p, hp, hr⟩ := ih hz
          refine ⟨p, ?_, hr⟩
          rw [List.getLast?_cons_cons]
          exact hp

theorem ciStrip_decomp : ∀ {pat l r : List Char}, ciStrip pat l = some r →
    ∃ u, l = u ++ r ∧ List.Forall₂ (fun c p => asciiLower c = asciiLower p) u pat := by
  intro pat
  induction pat with
  | nil =>
      intro l r h
      rw [ciStrip] at h
      injection h with h
      exact ⟨[], by rw [h]; rfl, List.Forall₂.nil⟩
  | cons p ps ih =>
      intro l r h
      cases l with
      | nil => rw [ciStrip] at h; exact absurd h (by simp)
      | cons c cs =>
          rw [ciStrip] at h
          split at h
          case isTrue heq =>
              obtain ⟨u, hu, hf⟩ := ih h
              refine ⟨c :: u, by rw [hu]; rfl, ?_⟩
              exact List.Forall₂.cons (beq_iff_eq.mp heq) hf
          case isFalse => exact absurd h (by simp)

theorem code_strip_last {u : List Char}
    (hf : List.Forall₂ (fun c p => asciiLower c = asciiLower p) u kwCode) :
    ∃ z, u.getLast? = some z ∧ z.isDigit = false := by
  have hne : u ≠ [] := by
    intro he
    subst he
    rw [kwCode] at hf
    cases hf
  have hz := List.getLast?_eq_getLast u hne
  obtain ⟨p, hp, hr⟩ := forall2_last hf hz
  have hpe : p = 'e' := by
    rw [show kwCode.getLast? = some 'e' from by decide] at hp
    injection hp with hp
    exact hp.symm
  subst hpe
  exact ⟨_, hz, nondigit_of_lower_e hr⟩

theorem getLast?_append_nondigit {a b : List Char}
    (ha : ∃ z, a.getLast? = some z ∧ z.isDigit = false)
    (hb : ∀ x ∈ b, x.isDigit = false) :
    ∃ z, (a ++ b).getLast? = some z ∧ z.isDigit = false := by
  cases hbe : b.getLast? with
  | none =>
      rw [List.getLast?_eq_none_iff] at hbe
      subst hbe
      simpa using ha
  | some z =>
      have hbne : b ≠ [] := by
        intro he
        rw [he] at hbe
        simp at hbe
      have hzb : z ∈ b := by
        rw [List.getLast?_eq_getLast b hbne] at hbe
        injection hbe with hbe
        rw [← hbe]
        exact List.getLast_mem hbne
      refine ⟨z, ?_, hb z hzb⟩
      rw [List.getLast?_append, hbe]
      rfl

/-- The last element of an append is that of the right part when nonempty. -/
theorem getLast?_append_of_some {a b : List Char} {z : Char}
    (h : b.getLast? = some z) : (a ++ b).getLast? = some z := by
  rw [List.getLast?_append, h]
  rfl

/-- Decomposition of a successful strategy-3 tail: whitespace, an optional
colon, more whitespace, then the captured digits; every consumed character is
a non-digit. -/
theorem try3Tail_decomp {r2 d : List Char} (h : try3Tail r2 = some d) :
    ∃ mid r3, r2 = mid ++ r3 ∧ (∀ x ∈ mid, x.isDigit = false) ∧
      d = takeDigits8 r3 ∧ 4 ≤ d.length := by
  simp only [try3Tail] at h
  split at h
  case isTrue hlen =>
    injection h with hd
    cases hr1c : r2.dropWhile isJsWs with
    | nil =>
        exfalso
        rw [hr1c] at hlen
        simp [takeDigits8] at hlen
    | cons c1 cs1 =>
        have hc1nw : isJsWs c1 = false := by
          have := head_dropWhile isJsWs r2
          rw [hr1c] at this
          simpa using this
        by_cases hc1 : c1 = ':'
        · subst hc1
          rw [hr1c] at hd hlen
          refine ⟨r2.takeWhile isJsWs ++ (':' :: cs1.takeWhile isJsWs),
            cs1.dropWhile isJsWs, ?_, ?_, hd.symm, ?_⟩
          · conv_lhs => rw [← List.takeWhile_append_dropWhile isJsWs r2, hr1c]
            rw [List.append_assoc, List.cons_append, List.takeWhile_append_dropWhile]
          · intro x hx
            rcases List.mem_append.mp hx with hx | hx
            · exact ws_not_digit (List.mem_takeWhile_imp hx)
            · rcases List.mem_cons.mp hx with hx | hx
              · subst hx
                decide
              · exact ws_not_digit (List.mem_takeWhile_imp hx)
          · rw [← hd]
            exact hlen
        · have hmatch : (match (c1 :: cs1 : List Char) with
              | ':' :: rest => rest
              | x => c1 :: cs1) = c1 :: cs1 := by
            split
            next heq =>
              exfalso
              rw [List.cons.injEq] at heq
              exact hc1 heq.1
            next => rfl
          rw [hr1c, hmatch] at hd hlen
          have hdw : (c1 :: cs1).dropWhile isJsWs = c1 :: cs1 := by
            rw [List.dropWhile_cons, hc1nw]
            simp
          rw [hdw] at hd hlen
          refine ⟨r2.takeWhile isJsWs, c1 :: cs1, ?_, ?_, hd.symm, ?_⟩
          · conv_lhs => rw [← List.takeWhile_append_dropWhile isJsWs r2, hr1c]
          · exact fun x hx => ws_not_digit (List.mem_takeWhile_imp hx)
          · rw [← hd]
            exact hlen
  case isFalse => exact absurd h (by simp)

/-- Decomposition of any successful strategy-3 match: a nonempty consumed
part ending in a non-digit, then the captured leading digits of the rest. -/
theorem try3_decomp {l d : List Char} (h : try3 l = some d) :
    ∃ k r3, l = k ++ r3 ∧ (∃ z, k.getLast? = some z ∧ z.isDigit = false) ∧
      d = takeDigits8 r3 ∧ 4 ≤ d.length := by
  unfold try3 at h
  cases h1 : ciStrip kwVerif l with
  | some r =>
      simp only [h1] at h
      cases r with
      | nil => simp at h
      | cons c cs =>
          dsimp only at h
          by_cases hcws : isJsWs c = true
          · rw [if_pos hcws] at h
            cases h2 : ciStrip kwCode ((c :: cs).dropWhile isJsWs) with
            | some r2 =>
                simp only [h2] at h
                obtain ⟨mid, r3, hr2split, hmidnd, hd, hlen⟩ := try3Tail_decomp h
                obtain ⟨uv, huv, hfv⟩ := ciStrip_decomp h1
                obtain ⟨uc, huc, hfc⟩ := ciStrip_decomp h2
                refine ⟨uv ++ ((c :: cs).takeWhile isJsWs ++ (uc ++ mid)), r3, ?_, ?_,
                  hd, hlen⟩
                · have hkey : uv ++ ((c :: cs).takeWhile isJsWs ++ (uc ++ mid)) ++ r3 = l := by
                    rw [huv]
                    calc uv ++ ((c :: cs).takeWhile isJsWs ++ (uc ++ mid)) ++ r3
                        = uv ++ ((c :: cs).takeWhile isJsWs ++ (uc ++ (mid ++ r3))) := by
                          simp [List.append_assoc]
                      _ = uv ++ ((c :: cs).takeWhile isJsWs ++ (c :: cs).dropWhile isJsWs) := by
                          rw [huc, hr2split]
                      _ = uv ++ (c :: cs) := by rw [List.takeWhile_append_dropWhile]
                  exact hkey.symm
                · have hkeq : uv ++ ((c :: cs).takeWhile isJsWs ++ (uc ++ mid)) =
                      (uv ++ ((c :: cs).takeWhile isJsWs ++ uc)) ++ mid := by
                    simp [List.append_assoc]
                  rw [hkeq]
                  obtain ⟨z, hz1, hz2⟩ := code_strip_last hfc
                  exact getLast?_append_nondigit
                    ⟨z, getLast?_append_of_some (getLast?_append_of_some hz1), hz2⟩ hmidnd
            | none => simp [h2] at h
          · rw [if_neg hcws] at h
            simp at h
  | none =>
      simp only [h1] at h
      cases h2 : ciStrip kwCode l with
      | some r =>
          simp only [h2] at h
          obtain ⟨mid, r3, hrsplit, hmidnd, hd, hlen⟩ := try3Tail_decomp h
          obtain ⟨uc, huc, hfc⟩ := ciStrip_decomp h2
          refine ⟨uc ++ mid, r3, ?_, ?_, hd, hlen⟩
          · rw [huc, hrsplit, List.append_assoc]
          · exact getLast?_append_nondigit (code_strip_last hfc) hmidnd
      | none => simp [h2] at h

/-- No suffix beginning with a digit and preceded by a non-digit can start
strictly inside the digit run or inside the digit-free tail. -/
theorem run_interior_no_start : ∀ (Rr : List Char) {post w r3 : List Char},
    Rr.all Char.isDigit = true →
    (∀ x ∈ post, x.isDigit = false) →
    Rr ++ post = w ++ r3 →
    (∃ dh, r3.head? = some dh ∧ dh.isDigit = true) →
    w ≠ [] →
    (∃ z, w.getLast? = some z ∧ z.isDigit = false) → False := by
  intro Rr
  induction Rr with
  | nil =>
      intro post w r3 _ hpost heq hdh hwne _
      obtain ⟨dh, hdh1, hdh2⟩ := hdh
      have hpeq : post = w ++ r3 := by simpa using heq
      have hr3 : dh ∈ r3 := by
        cases r3 with
        | nil => simp at hdh1
        | cons x xs =>
            simp only [List.head?_cons, Option.some.injEq] at hdh1
            rw [← hdh1]
            exact List.mem_cons_self x xs
      have hmem : dh ∈ post := by
        rw [hpeq]
        exact List.mem_append_right w hr3
      rw [hpost dh hmem] at hdh2
      exact absurd hdh2 (by simp)
  | cons a Rr' ih =>
      intro post w r3 hRd hpost hEq hdh hwne hz
      simp only [List.all_cons, Bool.and_eq_true] at hRd
      cases w with
      | nil => exact hwne rfl
      | cons x w' =>
          have hax : a = x := by
            have := congrArg List.head? hEq
            simpa using this
          have heq' : Rr' ++ post = w' ++ r3 := by
            have := congrArg List.tail hEq
            simpa using this
          cases w' with
          | nil =>
              obtain ⟨z, hz1, hz2⟩ := hz
              simp only [List.getLast?_singleton, Option.some.injEq] at hz1
              rw [← hz1, ← hax] at hz2
              rw [hRd.1] at hz2
              exact absurd hz2 (by simp)
          | cons y w'' =>
              obtain ⟨z, hz1, hz2⟩ := hz
              rw [List.getLast?_cons_cons] at hz1
              exact ih hRd.2 hpost heq' hdh (by simp) ⟨z, hz1, hz2⟩

/-- In a string whose digits form exactly the run `R`, the only suffix that
begins with a digit preceded by a non-digit is the one starting at `R`. -/
theorem run_suffix_of_digit_head : ∀ (pre : List Char) {R post w r3 : List Char},
    (∀ x ∈ pre, x.isDigit = false) →
    R.all Char.isDigit = true →
    (∀ x ∈ post, x.isDigit = false) →
    pre ++ (R ++ post) = w ++ r3 →
    (∃ dh, r3.head? = some dh ∧ dh.isDigit = true) →
    (∃ z, w.getLast? = some z ∧ z.isDigit = false) →
    r3 = R ++ post := by
  intro pre
  induction pre with
  | nil =>
      intro R post w r3 _ hRd hpost heq hdh hz
      cases w with
      | nil => simpa using heq.symm
      | cons x w' =>
          exfalso
          exact run_interior_no_start R hRd hpost (by simpa using heq) hdh (by simp) hz
  | cons p pre' ih =>
      intro R post w r3 hpre hRd hpost hEq hdh hz
      cases w with
      | nil =>
          exfalso
          obtain ⟨dh, h1, h2⟩ := hdh
          have hr3 : r3 = p :: (pre' ++ (R ++ post)) := by simpa using hEq.symm
          rw [hr3] at h1
          simp only [List.head?_cons, Option.some.injEq] at h1
          rw [← h1] at h2
          rw [hpre p (by simp)] at h2
          exact absurd h2 (by simp)
      | cons x w' =>
          have heq' : pre' ++ (R ++ post) = w' ++ r3 := by
            have := congrArg List.tail hEq
            simpa using this
          cases w' with
          | nil =>
              have hr3 : r3 = pre' ++ (R ++ post) := by simpa using heq'.symm
              cases pre' with
              | nil => simpa using hr3
              | cons y pre'' =>
                  exfalso
                  obtain ⟨dh, h1, h2⟩ := hdh
                  rw [hr3] at h1
                  simp only [List.cons_append, List.head?_cons, Option.some.injEq] at h1
                  rw [← h1] at h2
                  rw [hpre y (by simp)] at h2
                  exact absurd h2 (by simp)
          | cons y w'' =>
              obtain ⟨z, hz1, hz2⟩ := hz
              rw [List.getLast?_cons_cons] at hz1
              exact ih (fun u hu => hpre u (by simp [hu])) hRd hpost heq' hdh ⟨z, hz1, hz2⟩

/-- Any successful strategy-3 capture in a string whose only digits form the
eight-digit run `R` is exactly `R`. -/
theorem scan3_eq_run {pre R post d : List Char}
    (hpre : ∀ x ∈ pre, x.isDigit = false)
    (hR : R.length = 8) (hRd : R.all Char.isDigit = true)
    (hpost : ∀ x ∈ post, x.isDigit = false)
    (h : scan (fun _ l => try3 l) none (pre ++ (R ++ post)) = some d) :
    d = R := by
  obtain ⟨u, t, p, hsplit, hmatch⟩ := scan_split_of_some h
  obtain ⟨k, r3, htk, hkz, hd, hdlen⟩ := try3_decomp hmatch
  have heq : pre ++ (R ++ post) = (u ++ k) ++ r3 := by
    rw [hsplit, htk, List.append_assoc]
  have hz' : ∃ z, (u ++ k).getLast? = some z ∧ z.isDigit = false := by
    obtain ⟨z, h1, h2⟩ := hkz
    exact ⟨z, getLast?_append_of_some h1, h2⟩
  have hdh : ∃ dh, r3.head? = some dh ∧ dh.isDigit = true := by
    rw [hd] at hdlen
    cases hr3 : r3 with
    | nil =>
        rw [hr3] at hdlen
        simp [takeDigits8] at hdlen
    | cons x xs =>
        rw [hr3] at hdlen
        by_cases hx : x.isDigit = true
        · exact ⟨x, rfl, hx⟩
        · exfalso
          unfold takeDigits8 at hdlen
          rw [List.takeWhile_cons, if_neg (by simp [hx])] at hdlen
          simp at hdlen
  have hsuf := run_suffix_of_digit_head pre hpre hRd hpost heq hdh hz'
  rw [hd, hsuf]
  exact takeDigits8_run hR hRd hpost

/-- Strategy 4 on a string whose only digits form the eight-digit run `R`
returns exactly `R`. -/
theorem scan4_finds : ∀ (p' : List Char) (prev : Option Char) {R post : List Char},
    (∀ x ∈ p', x.isDigit = false) →
    R.length = 8 → R.all Char.isDigit = true →
    (∀ x ∈ post, x.isDigit = false) →
    scan (fun _ l => try4 l) prev (p' ++ (R ++ post)) = some R := by
  intro p'
  induction p' with
  | nil =>
      intro prev R post _ hR hRd hpost
      cases R with
      | nil => simp at hR
      | cons r0 R' =>
          have htd : takeDigits8 ((r0 :: R') ++ post) = r0 :: R' :=
            takeDigits8_run hR hRd hpost
          have htry : try4 ((r0 :: R') ++ post) = some (r0 :: R') := by
            simp only [try4, htd, hR]
            rfl
          rw [List.cons_append] at htry
          rw [List.nil_append, List.cons_append]
          simp only [scan, htry]
  | cons x p'' ih =>
      intro prev R post hp hR hRd hpost
      have hx : x.isDigit = false := hp x (by simp)
      have htry : try4 ((x :: p'') ++ (R ++ post)) = none := by
        unfold try4
        rw [show takeDigits8 ((x :: p'') ++ (R ++ post)) = [] from ?_]
        · rfl
        · unfold takeDigits8
          rw [List.cons_append, List.takeWhile_cons, if_neg (by simp [hx])]
          rfl
      rw [List.cons_append] at htry ⊢
      simp only [scan, htry]
      exact ih (some x) (fun y hy => hp y (by simp [hy])) hR hRd hpost

/-- C10: on any input whose only digit content is a single run of exactly
eight digits, `extractVerificationCode` returns all eight digits unchanged:
strategies 1 and 2 (`\b\d{6}\b`, `\b\d{5,7}\b`) cannot match inside the run,
so it falls through to the 4-8-digit fallbacks, and the truncation to six
digits never applies to it. -/
theorem c10_eight_digit_run (s : String) (pre R post : List Char)
    (hsplit : s.data = pre ++ (R ++ post))
    (hR : R.length = 8) (hRd : R.all Char.isDigit = true)
    (hpre : ∀ x ∈ pre, x.isDigit = false)
    (hpost : ∀ x ∈ post, x.isDigit = false) :
    extractVerificationCode s = some (String.mk R) := by
  have hne : s ≠ "" := by
    intro h
    rw [h] at hsplit
    have h2 : pre ++ (R ++ post) = [] := hsplit.symm.trans rfl
    have hlen := congrArg List.length h2
    simp only [List.length_append, List.length_nil, hR] at hlen
    omega
  simp only [extractVerificationCode, if_neg hne, hsplit,
    scan6_eight_none pre none hpre hR hRd hpost,
    scan57_eight_none pre none hpre hR hRd hpost]
  cases h3 : scan (fun _ l => try3 l) none (pre ++ (R ++ post)) with
  | some d =>
      rw [scan3_eq_run hpre hR hRd hpost h3]
  | none =>
      rw [scan4_finds pre none hpre hR hRd hpost]

theorem c10_eight_digit_run_witness :
    extractVerificationCode "ref 12345678!" = some "12345678" := by
  have h := c10_eight_digit_run "ref 12345678!" "ref ".data "12345678".data ['!']
    (by decide) (by decide) (by decide) (by decide) (by decide)
  exact h.trans (by decide)

end SmsHelper
